import Mathlib

/-!
# Toy Store (SDL2Game/main.cpp): event dispatcher, item store and edit buffers

A shallow embedding of the event loop of `main` in `src/SDL2Game/main.cpp`.

Modelling conventions.

* `int` is `Int` (no wrap-around: window sizes, pointer coordinates and item counts are taken
  far below `2^31`); `/` and `%` on `int` are the truncating `Int.tdiv` / `Int.tmod`.
* `std::string` is `List Char`, one element per `char` (byte); `length()` is `List.length`.
* `float` is `Price`, a rational: the literals `29.99f`, ... are the nearest floats of the
  decimals they spell and `balance += price` is `fadd`, the exact sum rounded to the nearest
  float (binary32, 24 significant bits, ties to even, subnormals below `2^-126`). Overflow
  to infinity and NaN are not part of the model.
* `std::to_string(float)` is the `%f` rendering (six decimals) of the value of the float.
* `std::stof` is a parameter `stof : List Char → Option Price`, `none` standing for a thrown
  exception (`invalid_argument` or `out_of_range`), which both commit paths swallow.
* A dispatch step returns `Option App`; `none` stands for undefined behaviour of the C++
  code: `store[i]` / `store.erase(begin() + i)` with `i` out of range, or `back()` on an
  empty string.
* The nine button rectangles of Menu and Store are variables of `main` that are assigned
  after the inner event loop (`layout`); the dispatcher reads the stored values.
-/

namespace SDL2Game

/-- The type of `Toy::price` and of `balance` (C++ `float`): the rational value of the float.
The values the program stores are floats: literals, results of `stof` and sums are rounded
by `roundF32`. -/
abbrev Price := ℚ

/-- The binary logarithm of a positive natural number, rounded down, by halving. -/
def log2Fuel : Nat → Nat → Nat
  | 0, _ => 0
  | fuel + 1, n => if n < 2 then 0 else log2Fuel fuel (n / 2) + 1

/-- The position of the highest set bit of `n`. -/
def natLog2 (n : Nat) : Nat := log2Fuel n n

/-- The binary exponent of a positive rational: the `e` with `2^e ≤ x < 2^(e+1)`. -/
def binade (x : ℚ) : Int :=
  if 1 ≤ x then (natLog2 ⌊x⌋₊ : Int) else -((natLog2 (⌈x⁻¹⌉₊ - 1) : Int) + 1)

/-- The exponent of the binary32 format for `x`: its binary exponent, not below -126
(subnormal numbers share the exponent -126). -/
def floatExp (x : ℚ) : Int := max (binade |x|) (-126)

/-- The spacing of the floats around `x`: 24 significant bits. -/
def ulp (x : ℚ) : ℚ := (2 : ℚ) ^ (floatExp x - 23)

/-- Rounding to the nearest integer, ties to the even one. -/
def roundHalfEven (z : ℚ) : Int :=
  if 1 / 2 < z - ⌊z⌋ ∨ (z - ⌊z⌋ = 1 / 2 ∧ ⌊z⌋ % 2 = 1) then ⌊z⌋ + 1 else ⌊z⌋

/-- The float nearest to `x` (round to nearest, ties to even); overflow is not modelled. -/
def roundF32 (x : ℚ) : ℚ := (roundHalfEven (x / ulp x) : ℚ) * ulp x

/-- The addition of two `float` values: the exact sum, rounded. -/
def fadd (a b : Price) : Price := roundF32 (a + b)

/-- The record `struct Toy`. -/
structure Toy where
  name : List Char
  description : List Char
  price : Price
  quantity : Int
deriving DecidableEq

/-- The enumeration `enum class AppState`. -/
inductive AppState where
  | MENU
  | STORE
  | EDIT
  | EXIT
deriving DecidableEq, Repr

/-- The SDL rectangle: top-left corner, width and height. -/
structure SDL_Rect where
  x : Int
  y : Int
  w : Int
  h : Int
deriving DecidableEq, Repr

/-- `IsPointInRect`: half-open containment test. -/
def IsPointInRect (px py : Int) (rect : SDL_Rect) : Bool :=
  decide (px ≥ rect.x) && decide (px < rect.x + rect.w) &&
    decide (py ≥ rect.y) && decide (py < rect.y + rect.h)

/-- The key symbols the dispatcher distinguishes; every other key is `OTHER`. -/
inductive Key where
  | BACKSPACE
  | TAB
  | RETURN
  | KP_ENTER
  | ESCAPE
  | OTHER
deriving DecidableEq, Repr

/-- The events polled by the inner loop. `MOUSEBUTTONDOWN` is a left-button press; every
event the `if`/`else if` chain does not name (other buttons, other window events) is `OTHER`. -/
inductive Event where
  | QUIT
  | WINDOWEVENT_RESIZED (data1 data2 : Int)
  | MOUSEBUTTONDOWN (x y : Int)
  | TEXTINPUT (text : List Char)
  | KEYDOWN (sym : Key)
  | OTHER
deriving DecidableEq, Repr

/-- The local variables of `main` that the event loop reads or writes. -/
structure App where
  winWidth : Int
  winHeight : Int
  store : List Toy
  balance : Price
  state : AppState
  running : Bool
  storeSelectedIndex : Int
  editName : List Char
  editDescription : List Char
  editPriceStr : List Char
  editFocusedField : Int
  menuPlayButton : SDL_Rect
  menuExitButton : SDL_Rect
  btnUp : SDL_Rect
  btnDown : SDL_Rect
  btnAdd : SDL_Rect
  btnDelete : SDL_Rect
  btnSell : SDL_Rect
  btnBack : SDL_Rect
  btnEdit : SDL_Rect
deriving DecidableEq

/-- The seeded `vector<Toy> store` of `main`. -/
def seededStore : List Toy :=
  [ { name := "Lego Set".toList, description := "A fun building set for kids.".toList,
      price := roundF32 (2999 / 100), quantity := 10 },
    { name := "Doll".toList, description := "A beautiful doll for imaginative play.".toList,
      price := roundF32 (1999 / 100), quantity := 5 },
    { name := "Toy Car".toList, description := "A speedy little car for racing.".toList,
      price := roundF32 (999 / 100), quantity := 15 } ]

/-- The item appended by the Add button: `{ "New Toy", "A newly added toy.", 14.99f, 7 }`. -/
def newToy : Toy :=
  { name := "New Toy".toList, description := "A newly added toy.".toList,
    price := roundF32 (1499 / 100), quantity := 7 }

/-- The state of `main` on entry of the outer loop. The nine button rectangles are declared
without an initialiser; their indeterminate contents are taken from `uninit`. -/
def initial (uninit : App) : App :=
  { uninit with
    winWidth := 800, winHeight := 600, store := seededStore, balance := 0,
    state := AppState.MENU, running := true, storeSelectedIndex := 0,
    editName := [], editDescription := [], editPriceStr := [], editFocusedField := 0 }

/-- The element access `v[i]`, defined for `0 ≤ i < v.size()` only. -/
def vecAt (v : List Toy) (i : Int) : Option Toy :=
  if 0 ≤ i then v[i.toNat]? else none

/-- The element assignment `v[i] = t`, defined for `0 ≤ i < v.size()` only. -/
def vecSet (v : List Toy) (i : Int) (t : Toy) : Option (List Toy) :=
  if 0 ≤ i ∧ i < v.length then some (v.set i.toNat t) else none

/-- The removal `v.erase(v.begin() + i)`, defined for `0 ≤ i < v.size()` only. -/
def vecErase (v : List Toy) (i : Int) : Option (List Toy) :=
  if 0 ≤ i ∧ i < v.length then some (v.eraseIdx i.toNat) else none

/-- The six decimals of `%f`: the digits of `m` (taken below `10^6`), zero padded. -/
def fracDigits (m : Nat) : List Char :=
  [Nat.digitChar (m / 100000 % 10), Nat.digitChar (m / 10000 % 10),
   Nat.digitChar (m / 1000 % 10), Nat.digitChar (m / 100 % 10),
   Nat.digitChar (m / 10 % 10), Nat.digitChar (m % 10)]

/-- The value `|p| * 10^6` rounded to the nearest integer, ties to even. -/
def scaledMicro (p : Price) : Nat :=
  let x : ℚ := |p| * 1000000
  let q : Nat := Int.toNat ⌊x⌋
  if 1 / 2 < x - q ∨ (x - q = 1 / 2 ∧ q % 2 = 1) then q + 1 else q

/-- `std::to_string(float)`, that is `%f`: sign, integer digits, `.` and six decimals. -/
def to_string (p : Price) : List Char :=
  (if p < 0 then ['-'] else []) ++
    (Nat.toDigits 10 (scaledMicro p / 1000000) ++ '.' :: fracDigits (scaledMicro p % 1000000))

/-- `s.find_last_not_of(c)`: the last position holding a character other than `c`;
`none` is `npos`. -/
def find_last_not_of : List Char → Char → Option Nat
  | [], _ => none
  | x :: xs, c =>
    match find_last_not_of xs c with
    | some k => some (k + 1)
    | none => if x ≠ c then some 0 else none

/-- The trimming of `editPriceStr` after `to_string`:
`erase(find_last_not_of('0') + 1, npos)` (with `npos + 1 = 0`), then `pop_back()` when
`back()` is `'.'`. `back()` on an empty string is undefined: `none`. -/
def trimPriceStr (d : List Char) : Option (List Char) :=
  let pos : Nat := match find_last_not_of d '0' with
    | some k => k + 1
    | none => 0
  let e := d.take pos
  match e.getLast? with
  | none => none
  | some c => if c = '.' then some e.dropLast else some e

/-- The row loop of the Store click: the first `i < n` whose row rectangle holds the point. -/
def rowHit (winWidth winHeight : Int) (mx my : Int) (n : Nat) : Option Nat :=
  let lineHeight := Int.tdiv winHeight 12
  let boxHeight := Int.tdiv (lineHeight * 2) 3
  let boxWidth := winWidth - 100
  let xPosition : Int := 50
  let startY := Int.tdiv winHeight 10
  (List.range n).find? fun i =>
    IsPointInRect mx my
      { x := xPosition, y := startY + (i : Int) * lineHeight, w := boxWidth, h := boxHeight }

/-- Click dispatch in `AppState::MENU`. -/
def clickMenu (s : App) (mx my : Int) : Option App :=
  if IsPointInRect mx my s.menuPlayButton then
    some { s with state := AppState.STORE, storeSelectedIndex := 0 }
  else if IsPointInRect mx my s.menuExitButton then
    some { s with running := false }
  else some s

/-- Body of the Up branch of the Store click. -/
def storeUp (s : App) : Option App :=
  if s.storeSelectedIndex > 0 then
    some { s with storeSelectedIndex := s.storeSelectedIndex - 1 }
  else some s

/-- Body of the Down branch of the Store click. -/
def storeDown (s : App) : Option App :=
  if s.storeSelectedIndex < (s.store.length : Int) - 1 then
    some { s with storeSelectedIndex := s.storeSelectedIndex + 1 }
  else some s

/-- Body of the Add branch: `push_back` and selection of the new last index. -/
def storeAdd (s : App) : Option App :=
  let store1 := s.store ++ [newToy]
  some { s with store := store1, storeSelectedIndex := (store1.length : Int) - 1 }

/-- Body of the Delete branch. -/
def storeDelete (s : App) : Option App :=
  if !s.store.isEmpty && decide (s.storeSelectedIndex < (s.store.length : Int)) then
    (vecErase s.store s.storeSelectedIndex).bind fun store1 =>
      if s.storeSelectedIndex > 0 then
        some { s with store := store1, storeSelectedIndex := s.storeSelectedIndex - 1 }
      else some { s with store := store1 }
  else some s

/-- Body of the Sell branch. -/
def storeSell (s : App) : Option App :=
  if !s.store.isEmpty && decide (s.storeSelectedIndex < (s.store.length : Int)) then
    (vecAt s.store s.storeSelectedIndex).bind fun t =>
      if t.quantity > 0 then
        if t.quantity = 1 then
          let balance1 := fadd s.balance t.price
          (vecErase s.store s.storeSelectedIndex).bind fun store1 =>
            if s.storeSelectedIndex ≥ (store1.length : Int) then
              some { s with balance := balance1, store := store1,
                            storeSelectedIndex := (store1.length : Int) - 1 }
            else some { s with balance := balance1, store := store1 }
        else
          let t1 : Toy := { t with quantity := t.quantity - 1 }
          (vecSet s.store s.storeSelectedIndex t1).bind fun store1 =>
            some { s with store := store1, balance := fadd s.balance t1.price }
      else some s
  else some s

/-- Body of the Edit branch: the edit buffers are seeded from the selected item. -/
def storeEdit (s : App) : Option App :=
  if decide (s.storeSelectedIndex ≥ 0) &&
      decide (s.storeSelectedIndex < (s.store.length : Int)) then
    (vecAt s.store s.storeSelectedIndex).bind fun t =>
      (trimPriceStr (to_string t.price)).bind fun priceStr =>
        some { s with editName := t.name, editDescription := t.description,
                      editPriceStr := priceStr, editFocusedField := 0,
                      state := AppState.EDIT }
  else some s

/-- Body of the final `else` of the Store click: the row loop. -/
def storeRow (s : App) (mx my : Int) : Option App :=
  match rowHit s.winWidth s.winHeight mx my s.store.length with
  | some i => some { s with storeSelectedIndex := (i : Int) }
  | none => some s

/-- Click dispatch in `AppState::STORE`: the `if`/`else if` chain over the stored button
rectangles, in the order Up, Down, Add, Delete, Sell, Edit, Back, rows. -/
def clickStore (s : App) (mx my : Int) : Option App :=
  if IsPointInRect mx my s.btnUp then storeUp s
  else if IsPointInRect mx my s.btnDown then storeDown s
  else if IsPointInRect mx my s.btnAdd then storeAdd s
  else if IsPointInRect mx my s.btnDelete then storeDelete s
  else if IsPointInRect mx my s.btnSell then storeSell s
  else if IsPointInRect mx my s.btnEdit then storeEdit s
  else if IsPointInRect mx my s.btnBack then some { s with state := AppState.MENU }
  else storeRow s mx my

/-- The rectangle `nameRect` of the Edit click, from the window size at the click. -/
def nameRect (winWidth winHeight : Int) : SDL_Rect :=
  { x := 50, y := Int.tdiv winHeight 5, w := winWidth - 100, h := 36 }

/-- The rectangle `priceRect`: `marginTop + lineHeight * 2` with `lineHeight = 40`. -/
def priceRect (winWidth winHeight : Int) : SDL_Rect :=
  { x := 50, y := Int.tdiv winHeight 5 + 40 * 2, w := winWidth - 100, h := 36 }

/-- The rectangle `descRect`: `marginTop + lineHeight * 4`, height `inputFieldHeight * 3`. -/
def descRect (winWidth winHeight : Int) : SDL_Rect :=
  { x := 50, y := Int.tdiv winHeight 5 + 40 * 4, w := winWidth - 100, h := 36 * 3 }

/-- The rectangle `btnSave` of the Edit click. -/
def btnSave (winWidth winHeight : Int) : SDL_Rect :=
  { x := Int.tdiv winWidth 2 - 150 - 20, y := winHeight - 80, w := 150, h := 50 }

/-- The rectangle `btnCancel` of the Edit click. -/
def btnCancel (winWidth winHeight : Int) : SDL_Rect :=
  { x := Int.tdiv winWidth 2 + 20, y := winHeight - 80, w := 150, h := 50 }

/-- Body of the Save branch of the Edit click: name and description are assigned, then
the price inside `try`; an exception of `stof` leaves the price as it is. -/
def saveClicked (stof : List Char → Option Price) (s : App) : Option App :=
  if decide (s.storeSelectedIndex ≥ 0) &&
      decide (s.storeSelectedIndex < (s.store.length : Int)) then
    (vecAt s.store s.storeSelectedIndex).bind fun t =>
      let t1 : Toy := { t with name := s.editName }
      let t2 : Toy := { t1 with description := s.editDescription }
      let t3 : Toy := match stof s.editPriceStr with
        | some v => { t2 with price := v }
        | none => t2
      (vecSet s.store s.storeSelectedIndex t3).bind fun store1 =>
        some { s with store := store1, state := AppState.STORE }
  else some { s with state := AppState.STORE }

/-- Click dispatch in `AppState::EDIT`; the rectangles are computed from the window size at
the click. `stof` is `std::stof`, `none` being a thrown exception (caught and ignored). -/
def clickEdit (stof : List Char → Option Price) (s : App) (mx my : Int) : Option App :=
  if IsPointInRect mx my (nameRect s.winWidth s.winHeight) then
    some { s with editFocusedField := 0 }
  else if IsPointInRect mx my (priceRect s.winWidth s.winHeight) then
    some { s with editFocusedField := 1 }
  else if IsPointInRect mx my (descRect s.winWidth s.winHeight) then
    some { s with editFocusedField := 2 }
  else if IsPointInRect mx my (btnSave s.winWidth s.winHeight) then saveClicked stof s
  else if IsPointInRect mx my (btnCancel s.winWidth s.winHeight) then
    some { s with state := AppState.STORE }
  else some s

/-- The filter of the Price field: the loop that pushes the digits, `.` and `,` of the
fragment. `isdigit` is the test for the ASCII digits `'0'` to `'9'` ("C" locale); a byte
outside ASCII counts as no digit. -/
def pushPriceChars (field : List Char) : List Char → List Char
  | [] => field
  | c :: cs =>
    if !(c.isDigit || c == '.' || c == ',') then pushPriceChars field cs
    else pushPriceChars (field ++ [c]) cs

/-- The `SDL_TEXTINPUT` branch (taken in `AppState::EDIT` only). -/
def textInput (s : App) (text : List Char) : Option App :=
  if s.editFocusedField = 0 then
    if s.editName.length + text.length < 256 then some { s with editName := s.editName ++ text }
    else some s
  else if s.editFocusedField = 1 then
    if s.editPriceStr.length + text.length < 256 then
      some { s with editPriceStr := pushPriceChars s.editPriceStr text }
    else some s
  else if s.editFocusedField = 2 then
    if s.editDescription.length + text.length < 256 then
      some { s with editDescription := s.editDescription ++ text }
    else some s
  else some s

/-- The focused buffer behind `currentField`; `none` is the null pointer. -/
def currentField (s : App) : Option (List Char) :=
  if s.editFocusedField = 0 then some s.editName
  else if s.editFocusedField = 1 then some s.editPriceStr
  else if s.editFocusedField = 2 then some s.editDescription
  else none

/-- The test `currentField && !currentField->empty()`. -/
def nonEmptyField : Option (List Char) → Bool
  | some f => !f.isEmpty
  | none => false

/-- The write through `currentField` (the focus is one of 0, 1, 2 when it is called). -/
def setCurrentField (s : App) (v : List Char) : App :=
  if s.editFocusedField = 0 then { s with editName := v }
  else if s.editFocusedField = 1 then { s with editPriceStr := v }
  else if s.editFocusedField = 2 then { s with editDescription := v }
  else s

/-- Body of the Enter / keypad Enter branch when the focus is not below 2: the commit,
written out a second time in the source. -/
def enterCommit (stof : List Char → Option Price) (s : App) : Option App :=
  if decide (s.storeSelectedIndex ≥ 0) &&
      decide (s.storeSelectedIndex < (s.store.length : Int)) then
    (vecAt s.store s.storeSelectedIndex).bind fun t =>
      let t1 : Toy := { t with name := s.editName }
      let t2 : Toy := { t1 with description := s.editDescription }
      (vecSet s.store s.storeSelectedIndex
        (match stof s.editPriceStr with
          | some v => { t2 with price := v }
          | none => t2)).bind fun store1 =>
        some { s with store := store1, state := AppState.STORE }
  else some { s with state := AppState.STORE }

/-- The `SDL_KEYDOWN` branch (taken in `AppState::EDIT` only). -/
def keyDown (stof : List Char → Option Price) (s : App) (sym : Key) : Option App :=
  if sym = Key.BACKSPACE ∧ nonEmptyField (currentField s) = true then
    match currentField s with
    | some f => some (setCurrentField s f.dropLast)
    | none => some s
  else if sym = Key.TAB then
    some { s with editFocusedField := Int.tmod (s.editFocusedField + 1) 3 }
  else if sym = Key.RETURN ∨ sym = Key.KP_ENTER then
    if s.editFocusedField < 2 then
      some { s with editFocusedField := s.editFocusedField + 1 }
    else enterCommit stof s
  else if sym = Key.ESCAPE then some { s with state := AppState.STORE }
  else some s

/-- One iteration of the inner `while (SDL_PollEvent(&event))` loop. -/
def dispatch (stof : List Char → Option Price) (s : App) : Event → Option App
  | Event.QUIT => some { s with running := false }
  | Event.WINDOWEVENT_RESIZED data1 data2 => some { s with winWidth := data1, winHeight := data2 }
  | Event.MOUSEBUTTONDOWN mx my =>
    if s.state = AppState.MENU then clickMenu s mx my
    else if s.state = AppState.STORE then clickStore s mx my
    else if s.state = AppState.EDIT then clickEdit stof s mx my
    else some s
  | Event.TEXTINPUT text => if s.state = AppState.EDIT then textInput s text else some s
  | Event.KEYDOWN sym => if s.state = AppState.EDIT then keyDown stof s sym else some s
  | Event.OTHER => some s

/-- The assignments of the Menu and Store button rectangles that follow the inner event
loop in every iteration of the outer loop. -/
def layout (s : App) : App :=
  let btnWidth := Int.tdiv s.winWidth 3
  let btnHeight := Int.tdiv s.winHeight 10
  let btnX := Int.tdiv (s.winWidth - btnWidth) 2
  let sBtnWidth := Int.tdiv (s.winWidth - 90) 7
  let sBtnHeight : Int := 50
  let sBtnY := s.winHeight - sBtnHeight - 20
  { s with
    menuPlayButton := { x := btnX, y := Int.tdiv s.winHeight 3, w := btnWidth, h := btnHeight },
    menuExitButton :=
      { x := btnX, y := Int.tdiv s.winHeight 3 + btnHeight + 20, w := btnWidth, h := btnHeight },
    btnUp := { x := 10, y := sBtnY, w := sBtnWidth, h := sBtnHeight },
    btnDown := { x := 20 + sBtnWidth, y := sBtnY, w := sBtnWidth, h := sBtnHeight },
    btnAdd := { x := 30 + sBtnWidth * 2, y := sBtnY, w := sBtnWidth, h := sBtnHeight },
    btnDelete := { x := 40 + sBtnWidth * 3, y := sBtnY, w := sBtnWidth, h := sBtnHeight },
    btnSell := { x := 50 + sBtnWidth * 4, y := sBtnY, w := sBtnWidth, h := sBtnHeight },
    btnEdit := { x := 60 + sBtnWidth * 5, y := sBtnY, w := sBtnWidth, h := sBtnHeight },
    btnBack := { x := 70 + sBtnWidth * 6, y := sBtnY, w := sBtnWidth, h := sBtnHeight } }

/-- The states the loop of `main` can be in: the entry state, closed under dispatching an
event (when the step is defined) and under the layout assignments at the end of a frame. -/
inductive Reachable (stof : List Char → Option Price) (uninit : App) : App → Prop where
  | init : Reachable stof uninit (initial uninit)
  | event {s s1 : App} (e : Event) :
      Reachable stof uninit s → dispatch stof s e = some s1 → Reachable stof uninit s1
  | frameEnd {s : App} : Reachable stof uninit s → Reachable stof uninit (layout s)

/-- Dispatch of a list of events in order; `none` as soon as one step is undefined. -/
def dispatchAll (stof : List Char → Option Price) : App → List Event → Option App
  | s, [] => some s
  | s, e :: es => (dispatch stof s e).bind fun s1 => dispatchAll stof s1 es

/-- A Store click reaches the Delete branch: the point lies in `btnDelete` and in none of
the rectangles tested before it. -/
def hitsDelete (s : App) (mx my : Int) : Bool :=
  !IsPointInRect mx my s.btnUp && !IsPointInRect mx my s.btnDown &&
    !IsPointInRect mx my s.btnAdd && IsPointInRect mx my s.btnDelete

/-- A Store click reaches the Sell branch. -/
def hitsSell (s : App) (mx my : Int) : Bool :=
  !IsPointInRect mx my s.btnUp && !IsPointInRect mx my s.btnDown &&
    !IsPointInRect mx my s.btnAdd && !IsPointInRect mx my s.btnDelete &&
    IsPointInRect mx my s.btnSell

/-- A Store click reaches the Edit branch. -/
def hitsEdit (s : App) (mx my : Int) : Bool :=
  !IsPointInRect mx my s.btnUp && !IsPointInRect mx my s.btnDown &&
    !IsPointInRect mx my s.btnAdd && !IsPointInRect mx my s.btnDelete &&
    !IsPointInRect mx my s.btnSell && IsPointInRect mx my s.btnEdit

/-- An Edit click reaches the Save branch. -/
def hitsSave (s : App) (mx my : Int) : Bool :=
  !IsPointInRect mx my (nameRect s.winWidth s.winHeight) &&
    !IsPointInRect mx my (priceRect s.winWidth s.winHeight) &&
    !IsPointInRect mx my (descRect s.winWidth s.winHeight) &&
    IsPointInRect mx my (btnSave s.winWidth s.winHeight)

/-- The C `isspace` test of the "C" locale. -/
def isspace (c : Char) : Bool :=
  c == ' ' || c == '\t' || c == '\n' || c == '\x0b' || c == '\x0c' || c == '\r'

/-- The number spelled by a list of decimal digits. -/
def digitsVal (ds : List Char) : Nat :=
  ds.foldl (fun a c => 10 * a + (c.toNat - 48)) 0

/-- The unsigned part of the reference instance of `stof`: the float nearest to the exact
value of the longest leading `<digits>`, `<digits>.<digits>` or `.<digits>`; `none` when
there is no digit (`invalid_argument`), when the value rounds beyond the largest `float`,
that is from `2^128 - 2^103` on, or when it is not zero and below the smallest normal float
`2^-126` (`out_of_range` in both cases). -/
def decMagnitude (t2 : List Char) : Option Price :=
  let ip := t2.takeWhile Char.isDigit
  let fp := match t2.dropWhile Char.isDigit with
    | '.' :: r => r.takeWhile Char.isDigit
    | _ => []
  if ip.isEmpty && fp.isEmpty then none
  else
    let v : ℚ := (digitsVal (ip ++ fp) : ℚ) / (10 : ℚ) ^ fp.length
    if (2 : ℚ) ^ 128 - 2 ^ 103 ≤ v then none
    else if 0 < v ∧ v < (2 : ℚ) ^ (-126 : Int) then none
    else some (roundF32 v)

/-- A reference instance of the `stof` parameter for plain decimal texts: leading blanks,
an optional sign, then `decMagnitude`. Exponents, hexadecimal numbers, `inf` and `nan` are
outside this instance. -/
def stofDec (t : List Char) : Option Price :=
  let t1 := t.dropWhile isspace
  let neg : Bool := t1.head? == some '-'
  let t2 := match t1 with
    | '-' :: r => r
    | '+' :: r => r
    | r => r
  (decMagnitude t2).map fun v => if neg then -v else v

/-- The trimming as the specification words it: all trailing `'0'` characters removed and
then one trailing `'.'` removed. -/
def trimSpec (d : List Char) : List Char :=
  let e := d.rdropWhile (fun c => c == '0')
  if e.getLast? = some '.' then e.dropLast else e

/-- The value of a decimal text `<digits>` or `<digits>.<digits>`. -/
def decValue (d : List Char) : ℚ :=
  let ip := d.takeWhile (fun c => c != '.')
  let fp := (d.dropWhile (fun c => c != '.')).drop 1
  (digitsVal ip : ℚ) + (digitsVal fp : ℚ) / (10 : ℚ) ^ fp.length

/-- A state with every button rectangle empty, used to start concrete runs. -/
def blank : App :=
  { winWidth := 0, winHeight := 0, store := [], balance := 0, state := AppState.EXIT,
    running := false, storeSelectedIndex := 0, editName := [], editDescription := [],
    editPriceStr := [], editFocusedField := 0,
    menuPlayButton := ⟨0, 0, 0, 0⟩, menuExitButton := ⟨0, 0, 0, 0⟩, btnUp := ⟨0, 0, 0, 0⟩,
    btnDown := ⟨0, 0, 0, 0⟩, btnAdd := ⟨0, 0, 0, 0⟩, btnDelete := ⟨0, 0, 0, 0⟩,
    btnSell := ⟨0, 0, 0, 0⟩, btnBack := ⟨0, 0, 0, 0⟩, btnEdit := ⟨0, 0, 0, 0⟩ }

/-- The entry state after one frame without events: Menu, seeded store, and the button
rectangles of the 800 x 600 window. -/
def firstFrame : App := layout (initial blank)

/-- The state `firstFrame` switched to the Store screen with the given items and selection. -/
def storeWith (items : List Toy) (sel : Int) : App :=
  { firstFrame with state := AppState.STORE, store := items, storeSelectedIndex := sel }

/-- A click inside the Play button of the 800 x 600 layout. -/
def evPlay : Event := Event.MOUSEBUTTONDOWN 300 220

/-- A click inside the Down button of the 800 x 600 layout. -/
def evDown : Event := Event.MOUSEBUTTONDOWN 150 550

/-- A click inside the Delete button of the 800 x 600 layout. -/
def evDelete : Event := Event.MOUSEBUTTONDOWN 400 550

/-- A click inside the Sell button of the 800 x 600 layout. -/
def evSell : Event := Event.MOUSEBUTTONDOWN 500 550

/-- A click inside the Edit button of the 800 x 600 layout. -/
def evEdit : Event := Event.MOUSEBUTTONDOWN 600 550

/-- Play, Down, Down and fifteen times Sell: the last seeded item is sold out. -/
def soldOutRun : List Event :=
  [evPlay, evDown, evDown] ++ List.replicate 15 evSell

/-- Left clicks at the given points, in order. -/
def clicks (pts : List (Int × Int)) : List Event :=
  pts.map fun p => Event.MOUSEBUTTONDOWN p.1 p.2

/-- Play, Down and four times Sell: the second seeded item (quantity 5) is left with one
unit and is selected. -/
def dollLastUnitRun : List Event :=
  [evPlay, evDown] ++ List.replicate 4 evSell

/-- Play, Delete, Delete and fourteen times Sell: the only item left is the third seeded
item with one unit. -/
def carLastUnitRun : List Event :=
  [evPlay, evDelete, evDelete] ++ List.replicate 14 evSell

/-- The characters the Price field accepts: the condition of the filter loop. -/
def priceChar (c : Char) : Bool :=
  c.isDigit || c == '.' || c == ','

/-- The invariant behind the balance: no stored price is negative, the price text holds
accepted characters only, and the balance is the float of a non-negative number. -/
def pricesOk (s : App) : Prop :=
  (∀ t ∈ s.store, 0 ≤ t.price) ∧ (∀ c ∈ s.editPriceStr, priceChar c = true) ∧
    ∃ y : ℚ, 0 ≤ y ∧ s.balance = roundF32 y

/-- The event is a click that reaches the Sell branch while the item sequence is not
empty. -/
def isSellHit (s : App) (e : Event) : Prop :=
  ∃ mx my, e = Event.MOUSEBUTTONDOWN mx my ∧ s.state = AppState.STORE ∧
    hitsSell s mx my = true ∧ s.store ≠ []

/-- An Edit-state sample: the seeded store on the 800 x 600 layout, first item selected,
buffers `Robot` / `x`, the given price text, focus on the last field. -/
def editSample (priceText : List Char) : App :=
  { storeWith seededStore 0 with
    state := AppState.EDIT, editName := "Robot".toList, editDescription := "x".toList,
    editPriceStr := priceText, editFocusedField := 2 }

/-- The scenario of the editor: a click (meant for the Edit button), the text `Robot`, Tab,
the text `abc`, Enter and Enter. -/
def robotScenario (mx my : Int) : List Event :=
  [Event.MOUSEBUTTONDOWN mx my, Event.TEXTINPUT "Robot".toList, Event.KEYDOWN Key.TAB,
   Event.TEXTINPUT "abc".toList, Event.KEYDOWN Key.RETURN, Event.KEYDOWN Key.RETURN]

/-- A one-item store whose price is the float nearest to 0.0000001. -/
def tinyPriceStore : List Toy :=
  [ { name := "Lego Set".toList, description := "A fun building set for kids.".toList,
      price := roundF32 (1 / 10000000), quantity := 10 } ]

/-- The invariant behind the length cap: the three edit texts are shorter than 256, and so
are the name and the description of every item; every stored price is within the range of
`float`. -/
def textsOk (s : App) : Prop :=
  (s.editName.length < 256 ∧ s.editPriceStr.length < 256 ∧ s.editDescription.length < 256) ∧
    ∀ t ∈ s.store, t.name.length < 256 ∧ t.description.length < 256 ∧ |t.price| < 2 ^ 128

/-- Play, Edit and a text of 200 characters typed into the Name field. -/
def longNameRun : List Event :=
  [evPlay, evEdit, Event.TEXTINPUT (List.replicate 200 'x')]

/-- A click inside the Add button of the 800 x 600 layout. -/
def evAdd : Event := Event.MOUSEBUTTONDOWN 280 550

/-- Play and Add, then the new item is edited to the price 50000000 and sold twice (balance
100000000), then edited to the price 3: the item is left selected with five units. -/
def bigBalanceRun : List Event :=
  [evPlay, evAdd, evEdit, Event.KEYDOWN Key.TAB] ++
    List.replicate 5 (Event.KEYDOWN Key.BACKSPACE) ++
    [Event.TEXTINPUT "50000000".toList, Event.KEYDOWN Key.RETURN, Event.KEYDOWN Key.RETURN,
     evSell, evSell, evEdit, Event.KEYDOWN Key.TAB] ++
    List.replicate 8 (Event.KEYDOWN Key.BACKSPACE) ++
    [Event.TEXTINPUT "3".toList, Event.KEYDOWN Key.RETURN, Event.KEYDOWN Key.RETURN]

/-- The selection is a valid index whenever the item sequence is not empty. -/
def selInRange (s : App) : Prop :=
  s.store ≠ [] → 0 ≤ s.storeSelectedIndex ∧ s.storeSelectedIndex < (s.store.length : Int)

/-- The rectangle `itemRect` of row `i` in the row loop of the Store click, from the window
size at the click. -/
def itemRect (winWidth winHeight : Int) (i : Nat) : SDL_Rect :=
  { x := 50, y := Int.tdiv winHeight 10 + (i : Int) * Int.tdiv winHeight 12,
    w := winWidth - 100, h := Int.tdiv (Int.tdiv winHeight 12 * 2) 3 }

/-- A Store click reaches the final `else`: the point lies in none of the seven stored
button rectangles. -/
def hitsNoButton (s : App) (mx my : Int) : Bool :=
  !IsPointInRect mx my s.btnUp && !IsPointInRect mx my s.btnDown &&
    !IsPointInRect mx my s.btnAdd && !IsPointInRect mx my s.btnDelete &&
    !IsPointInRect mx my s.btnSell && !IsPointInRect mx my s.btnEdit &&
    !IsPointInRect mx my s.btnBack

/-- Two rectangles overlap for hit-testing: some point passes `IsPointInRect` for both. -/
def overlap (r1 r2 : SDL_Rect) : Prop :=
  ∃ px py : Int, IsPointInRect px py r1 = true ∧ IsPointInRect px py r2 = true

/-- An Edit-state sample on a window of 800 x 350: the seeded store, first item selected,
focus on the Name field. -/
def editLowWindow : App :=
  { storeWith seededStore 0 with
    winWidth := 800, winHeight := 350, state := AppState.EDIT, editFocusedField := 0 }

/-- The stored Menu and Store button rectangles are the ones `layout` derives from the
stored window size. -/
def buttonsCurrent (s : App) : Prop :=
  layout s = s

/-- A resize to 400 x 300 followed, in the same frame, by a click at (150, 110), a point of
the Play button of the 400 x 300 layout. -/
def resizeThenClick : List Event :=
  [Event.WINDOWEVENT_RESIZED 400 300, Event.MOUSEBUTTONDOWN 150 110]

/-- Every stored item has at least one unit. -/
def quantitiesOk (s : App) : Prop :=
  ∀ t ∈ s.store, 1 ≤ t.quantity

end SDL2Game

namespace SDL2Game

/-! ## Float rounding -/

theorem log2Fuel_spec : ∀ (fuel n : Nat), n ≤ fuel → n ≠ 0 →
    2 ^ log2Fuel fuel n ≤ n ∧ n < 2 ^ (log2Fuel fuel n + 1)
  | 0, n, hle, hn => absurd (Nat.le_zero.mp hle) hn
  | fuel + 1, n, hle, hn => by
    unfold log2Fuel
    split_ifs with h2
    · have : n = 1 := by omega
      subst this
      simp
    · have ih := log2Fuel_spec fuel (n / 2) (by omega) (by omega)
      rw [pow_succ, pow_succ (2 : Nat) (log2Fuel fuel (n / 2) + 1)]
      omega

theorem natLog2_spec {n : Nat} (hn : n ≠ 0) :
    2 ^ natLog2 n ≤ n ∧ n < 2 ^ (natLog2 n + 1) :=
  log2Fuel_spec n n (le_refl n) hn

theorem binade_spec {x : ℚ} (hx : 0 < x) :
    (2 : ℚ) ^ binade x ≤ x ∧ x < (2 : ℚ) ^ (binade x + 1) := by
  unfold binade
  split_ifs with h1
  · have hn : ⌊x⌋₊ ≠ 0 := Nat.pos_iff_ne_zero.mp (Nat.floor_pos.mpr h1)
    obtain ⟨hlo, hhi⟩ := natLog2_spec hn
    have hfl : ((⌊x⌋₊ : ℕ) : ℚ) ≤ x := Nat.floor_le (le_of_lt hx)
    have hfl2 : x < ((⌊x⌋₊ : ℕ) : ℚ) + 1 := Nat.lt_floor_add_one x
    constructor
    · rw [zpow_natCast]
      calc (2 : ℚ) ^ natLog2 ⌊x⌋₊ = ((2 ^ natLog2 ⌊x⌋₊ : ℕ) : ℚ) := by push_cast; rfl
        _ ≤ ((⌊x⌋₊ : ℕ) : ℚ) := by exact_mod_cast hlo
        _ ≤ x := hfl
    · have h3 : ((natLog2 ⌊x⌋₊ : ℕ) : ℤ) + 1 = ((natLog2 ⌊x⌋₊ + 1 : ℕ) : ℤ) := by push_cast; rfl
      rw [h3, zpow_natCast]
      calc x < ((⌊x⌋₊ : ℕ) : ℚ) + 1 := hfl2
        _ ≤ ((2 ^ (natLog2 ⌊x⌋₊ + 1) : ℕ) : ℚ) := by exact_mod_cast hhi
        _ = (2 : ℚ) ^ (natLog2 ⌊x⌋₊ + 1) := by push_cast; rfl
  · have hx1 : x < 1 := not_le.mp h1
    have hy1 : 1 < x⁻¹ := by
      rw [one_lt_inv₀ hx]
      exact hx1
    have hy0 : (0 : ℚ) ≤ x⁻¹ := by positivity
    have hc1 : x⁻¹ ≤ ((⌈x⁻¹⌉₊ : ℕ) : ℚ) := Nat.le_ceil _
    have hc2 : ((⌈x⁻¹⌉₊ : ℕ) : ℚ) < x⁻¹ + 1 := Nat.ceil_lt_add_one hy0
    have hc : 2 ≤ ⌈x⁻¹⌉₊ := by
      have : (1 : ℚ) < ((⌈x⁻¹⌉₊ : ℕ) : ℚ) := lt_of_lt_of_le hy1 hc1
      have : 1 < ⌈x⁻¹⌉₊ := by exact_mod_cast this
      omega
    have hm : ⌈x⁻¹⌉₊ - 1 ≠ 0 := by omega
    obtain ⟨hlo, hhi⟩ := natLog2_spec hm
    have hxy : x * x⁻¹ = 1 := mul_inv_cancel₀ (ne_of_gt hx)
    have hcast : ((⌈x⁻¹⌉₊ - 1 : ℕ) : ℚ) = ((⌈x⁻¹⌉₊ : ℕ) : ℚ) - 1 := by
      rw [Nat.cast_sub (by omega)]
      simp
    constructor
    · -- 2 ^ (-(k+1)) ≤ x
      have hP : (0 : ℚ) < (2 : ℚ) ^ (natLog2 (⌈x⁻¹⌉₊ - 1) + 1) := by positivity
      have hle : x⁻¹ ≤ (2 : ℚ) ^ (natLog2 (⌈x⁻¹⌉₊ - 1) + 1) := by
        have h5 : ((⌈x⁻¹⌉₊ : ℕ) : ℚ) ≤ ((2 ^ (natLog2 (⌈x⁻¹⌉₊ - 1) + 1) : ℕ) : ℚ) := by
          have : ⌈x⁻¹⌉₊ ≤ 2 ^ (natLog2 (⌈x⁻¹⌉₊ - 1) + 1) := by omega
          exact_mod_cast this
        calc x⁻¹ ≤ ((⌈x⁻¹⌉₊ : ℕ) : ℚ) := hc1
          _ ≤ ((2 ^ (natLog2 (⌈x⁻¹⌉₊ - 1) + 1) : ℕ) : ℚ) := h5
          _ = (2 : ℚ) ^ (natLog2 (⌈x⁻¹⌉₊ - 1) + 1) := by push_cast; rfl
      have h6 : (-(((natLog2 (⌈x⁻¹⌉₊ - 1) : ℕ) : ℤ) + 1)) =
          -((natLog2 (⌈x⁻¹⌉₊ - 1) + 1 : ℕ) : ℤ) := by push_cast; rfl
      rw [h6, zpow_neg, zpow_natCast, inv_eq_one_div, div_le_iff₀ hP]
      calc (1 : ℚ) = x * x⁻¹ := hxy.symm
        _ ≤ x * (2 : ℚ) ^ (natLog2 (⌈x⁻¹⌉₊ - 1) + 1) := mul_le_mul_of_nonneg_left hle (le_of_lt hx)
    · have hQ : (0 : ℚ) < (2 : ℚ) ^ natLog2 (⌈x⁻¹⌉₊ - 1) := by positivity
      have hlt : (2 : ℚ) ^ natLog2 (⌈x⁻¹⌉₊ - 1) < x⁻¹ := by
        have h5 : ((2 ^ natLog2 (⌈x⁻¹⌉₊ - 1) : ℕ) : ℚ) ≤ ((⌈x⁻¹⌉₊ - 1 : ℕ) : ℚ) := by
          exact_mod_cast hlo
        calc (2 : ℚ) ^ natLog2 (⌈x⁻¹⌉₊ - 1) = ((2 ^ natLog2 (⌈x⁻¹⌉₊ - 1) : ℕ) : ℚ) := by
              push_cast; rfl
          _ ≤ ((⌈x⁻¹⌉₊ - 1 : ℕ) : ℚ) := h5
          _ = ((⌈x⁻¹⌉₊ : ℕ) : ℚ) - 1 := hcast
          _ < x⁻¹ := by linarith
      have h6 : (-(((natLog2 (⌈x⁻¹⌉₊ - 1) : ℕ) : ℤ) + 1)) + 1 =
          -((natLog2 (⌈x⁻¹⌉₊ - 1) : ℕ) : ℤ) := by ring
      rw [h6, zpow_neg, zpow_natCast, inv_eq_one_div, lt_div_iff₀ hQ]
      calc x * (2 : ℚ) ^ natLog2 (⌈x⁻¹⌉₊ - 1) < x * x⁻¹ := mul_lt_mul_of_pos_left hlt hx
        _ = 1 := hxy

theorem ulp_pos (x : ℚ) : 0 < ulp x := by
  unfold ulp
  positivity

theorem two_zpow_succ (e : ℤ) : (2 : ℚ) ^ (e + 1) = 16777216 * (2 : ℚ) ^ (e - 23) := by
  have h : e + 1 = 24 + (e - 23) := by ring
  rw [h, zpow_add₀ (by norm_num : (2 : ℚ) ≠ 0)]
  norm_num

theorem two_zpow_self (e : ℤ) : (2 : ℚ) ^ e = 8388608 * (2 : ℚ) ^ (e - 23) := by
  have h : e = 23 + (e - 23) := by ring
  nth_rewrite 1 [h]
  rw [zpow_add₀ (by norm_num : (2 : ℚ) ≠ 0)]
  norm_num

theorem floor_le_roundHalfEven (z : ℚ) : ⌊z⌋ ≤ roundHalfEven z := by
  unfold roundHalfEven
  split_ifs <;> omega

theorem le_roundHalfEven {k : ℤ} {z : ℚ} (h : (k : ℚ) ≤ z) : k ≤ roundHalfEven z :=
  le_trans (Int.le_floor.mpr h) (floor_le_roundHalfEven z)

theorem roundHalfEven_le {k : ℤ} {z : ℚ} (h : z ≤ (k : ℚ)) : roundHalfEven z ≤ k := by
  have hfl : ((⌊z⌋ : ℤ) : ℚ) ≤ z := Int.floor_le z
  unfold roundHalfEven
  split_ifs with hc
  · have hpos : ((⌊z⌋ : ℤ) : ℚ) < z := by
      rcases hc with h1 | ⟨h1, -⟩ <;> linarith
    have : ((⌊z⌋ : ℤ) : ℚ) < (k : ℚ) := lt_of_lt_of_le hpos h
    have : ⌊z⌋ < k := by exact_mod_cast this
    omega
  · have : ((⌊z⌋ : ℤ) : ℚ) ≤ (k : ℚ) := le_trans hfl h
    exact_mod_cast this

theorem roundHalfEven_le_pred {k : ℤ} {z : ℚ} (h : z < (k : ℚ) - 1 / 2) :
    roundHalfEven z ≤ k - 1 := by
  have hfl : ((⌊z⌋ : ℤ) : ℚ) ≤ z := Int.floor_le z
  have hlt : ((⌊z⌋ : ℤ) : ℚ) < (k : ℚ) := by linarith
  have hlt2 : ⌊z⌋ < k := by exact_mod_cast hlt
  unfold roundHalfEven
  split_ifs with hc
  · by_contra hcon
    have heq : ⌊z⌋ = k - 1 := by omega
    have heq2 : ((⌊z⌋ : ℤ) : ℚ) = (k : ℚ) - 1 := by
      rw [heq]
      push_cast
      ring
    rcases hc with h1 | ⟨h1, -⟩ <;> linarith
  · omega

theorem roundF32_nonneg {x : ℚ} (hx : 0 ≤ x) : 0 ≤ roundF32 x := by
  unfold roundF32
  have hz : ((0 : ℤ) : ℚ) ≤ x / ulp x := by
    have := ulp_pos x
    simp only [Int.cast_zero]
    positivity
  have hk : (0 : ℤ) ≤ roundHalfEven (x / ulp x) := le_roundHalfEven hz
  have hk2 : (0 : ℚ) ≤ (roundHalfEven (x / ulp x) : ℚ) := by exact_mod_cast hk
  exact mul_nonneg hk2 (le_of_lt (ulp_pos x))

theorem floatExp_cases (x : ℚ) :
    floatExp x = binade |x| ∨ (floatExp x = -126 ∧ binade |x| < -126) := by
  unfold floatExp
  rcases le_total (binade |x|) (-126) with h | h
  · rcases eq_or_lt_of_le h with h1 | h1
    · left
      rw [h1]
      rfl
    · right
      exact ⟨max_eq_right h, h1⟩
  · left
    exact max_eq_left h

theorem floatExp_ge (x : ℚ) : -126 ≤ floatExp x := le_max_right _ _

theorem lt_two_zpow_floatExp {x : ℚ} (hx : 0 ≤ x) : x < (2 : ℚ) ^ (floatExp x + 1) := by
  rcases eq_or_lt_of_le hx with h0 | hpos
  · rw [← h0]
    positivity
  · have hb := (binade_spec hpos).2
    have habs : |x| = x := abs_of_pos hpos
    have hle : binade x + 1 ≤ floatExp x + 1 := by
      have : binade x ≤ floatExp x := by
        unfold floatExp
        rw [habs]
        exact le_max_left _ _
      omega
    exact lt_of_lt_of_le hb (zpow_le_zpow_right₀ (by norm_num) hle)

theorem two_zpow_floatExp_le {x : ℚ} (hx : 0 < x) (he : -126 < floatExp x) :
    (2 : ℚ) ^ floatExp x ≤ x := by
  have habs : |x| = x := abs_of_pos hx
  rcases floatExp_cases x with h | ⟨h, -⟩
  · rw [h, habs]
    exact (binade_spec hx).1
  · omega

theorem roundF32_le_top {x : ℚ} (hx : 0 ≤ x) : roundF32 x ≤ (2 : ℚ) ^ (floatExp x + 1) := by
  have hu := ulp_pos x
  have hlt := lt_two_zpow_floatExp hx
  rw [two_zpow_succ] at hlt ⊢
  have hz : x / ulp x ≤ ((16777216 : ℤ) : ℚ) := by
    rw [div_le_iff₀ hu]
    push_cast
    exact le_of_lt hlt
  have hk := roundHalfEven_le hz
  have hk2 : (roundHalfEven (x / ulp x) : ℚ) ≤ 16777216 := by exact_mod_cast hk
  unfold roundF32
  exact mul_le_mul_of_nonneg_right hk2 (le_of_lt hu)

theorem le_roundF32_bot {x : ℚ} (hx : 0 < x) (he : -126 < floatExp x) :
    (2 : ℚ) ^ floatExp x ≤ roundF32 x := by
  have hu := ulp_pos x
  have hle := two_zpow_floatExp_le hx he
  rw [two_zpow_self] at hle ⊢
  have hz : ((8388608 : ℤ) : ℚ) ≤ x / ulp x := by
    rw [le_div_iff₀ hu]
    push_cast
    exact hle
  have hk := le_roundHalfEven hz
  have hk2 : (8388608 : ℚ) ≤ (roundHalfEven (x / ulp x) : ℚ) := by exact_mod_cast hk
  unfold roundF32
  exact mul_le_mul_of_nonneg_right hk2 (le_of_lt hu)

/-- A value that is at least a float is rounded to at least that float. -/
theorem roundF32_le_roundF32 {y x : ℚ} (hy : 0 ≤ y) (h : roundF32 y ≤ x) :
    roundF32 y ≤ roundF32 x := by
  have hb0 := roundF32_nonneg hy
  have hx0 : 0 ≤ x := le_trans hb0 h
  rcases eq_or_lt_of_le hb0 with hbz | hbpos
  · rw [← hbz]
    exact roundF32_nonneg hx0
  · have hxpos : 0 < x := lt_of_lt_of_le hbpos h
    have hypos : 0 < y := by
      rcases eq_or_lt_of_le hy with h0 | h0
      · exfalso
        rw [← h0] at hbpos
        have hz : roundF32 0 = 0 := by simp [roundF32, roundHalfEven]
        rw [hz] at hbpos
        exact lt_irrefl _ hbpos
      · exact h0
    rcases lt_trichotomy (floatExp y) (floatExp x) with hlt | heq | hgt
    · have hex : -126 < floatExp x := lt_of_le_of_lt (floatExp_ge y) hlt
      calc roundF32 y ≤ (2 : ℚ) ^ (floatExp y + 1) := roundF32_le_top hy
        _ ≤ (2 : ℚ) ^ floatExp x := zpow_le_zpow_right₀ (by norm_num) (by omega)
        _ ≤ roundF32 x := le_roundF32_bot hxpos hex
    · have hu : ulp y = ulp x := by
        unfold ulp
        rw [heq]
      have hupos := ulp_pos x
      have hz : ((roundHalfEven (y / ulp y) : ℤ) : ℚ) ≤ x / ulp x := by
        rw [le_div_iff₀ hupos, ← hu]
        exact h
      have hk := le_roundHalfEven hz
      have hk2 : (roundHalfEven (y / ulp y) : ℚ) ≤ (roundHalfEven (x / ulp x) : ℚ) := by
        exact_mod_cast hk
      unfold roundF32
      rw [hu]
      rw [hu] at hk2
      exact mul_le_mul_of_nonneg_right hk2 (le_of_lt hupos)
    · exfalso
      have hey : -126 < floatExp y := lt_of_le_of_lt (floatExp_ge x) hgt
      have h1 : x < (2 : ℚ) ^ (floatExp x + 1) := lt_two_zpow_floatExp hx0
      have h2 : (2 : ℚ) ^ (floatExp x + 1) ≤ (2 : ℚ) ^ floatExp y :=
        zpow_le_zpow_right₀ (by norm_num) (by omega)
      have h3 := le_roundF32_bot hypos hey
      linarith

theorem roundF32_lt_overflow {v : ℚ} (hv : 0 ≤ v) (hlt : v < 2 ^ 128 - 2 ^ 103) :
    roundF32 v < 2 ^ 128 := by
  have hu := ulp_pos v
  have he : floatExp v ≤ 127 := by
    by_contra hcon
    have h128 : 128 ≤ floatExp v := by omega
    have hvpos : 0 < v := by
      rcases eq_or_lt_of_le hv with h0 | h0
      · exfalso
        have hz : floatExp (0 : ℚ) = -1 := by decide!
        rw [← h0, hz] at h128
        omega
      · exact h0
    have h1 := two_zpow_floatExp_le hvpos (by omega)
    have h2 : (2 : ℚ) ^ (128 : ℤ) ≤ (2 : ℚ) ^ floatExp v :=
      zpow_le_zpow_right₀ (by norm_num) h128
    have h3 : (2 : ℚ) ^ (128 : ℤ) = 2 ^ 128 := by norm_cast
    rw [h3] at h2
    have : (0 : ℚ) < 2 ^ 103 := by positivity
    linarith
  rcases eq_or_lt_of_le he with h127 | hlow
  · have hulp : ulp v = 2 ^ 104 := by
      unfold ulp
      rw [h127]
      norm_num
    have hz : v / ulp v < ((16777216 : ℤ) : ℚ) - 1 / 2 := by
      rw [div_lt_iff₀ hu, hulp]
      push_cast
      have : ((16777216 : ℚ) - 1 / 2) * 2 ^ 104 = 2 ^ 128 - 2 ^ 103 := by norm_num
      rw [this]
      exact hlt
    have hk := roundHalfEven_le_pred hz
    have hk2 : (roundHalfEven (v / ulp v) : ℚ) ≤ 16777215 := by exact_mod_cast hk
    unfold roundF32
    calc (roundHalfEven (v / ulp v) : ℚ) * ulp v ≤ 16777215 * ulp v :=
          mul_le_mul_of_nonneg_right hk2 (le_of_lt hu)
      _ < 2 ^ 128 := by rw [hulp]; norm_num
  · calc roundF32 v ≤ (2 : ℚ) ^ (floatExp v + 1) := roundF32_le_top hv
      _ ≤ (2 : ℚ) ^ (127 : ℤ) := zpow_le_zpow_right₀ (by norm_num) (by omega)
      _ < 2 ^ 128 := by norm_num

/-! ## Library lemmas: element access, trimming, rendering -/

theorem vecAt_eq_some {v : List Toy} {i : Int} {t : Toy} (h : vecAt v i = some t) :
    0 ≤ i ∧ i < v.length ∧ v[i.toNat]? = some t := by
  unfold vecAt at h
  split at h
  · rename_i h0
    have hlt := (List.getElem?_eq_some.mp h).1
    exact ⟨h0, by omega, h⟩
  · simp at h

theorem vecAt_of_range {v : List Toy} {i : Int} (h0 : 0 ≤ i) (h1 : i < v.length) :
    ∃ t, vecAt v i = some t ∧ v[i.toNat]? = some t := by
  have hlt : i.toNat < v.length := by omega
  refine ⟨v[i.toNat], ?_, List.getElem?_eq_getElem hlt⟩
  simp [vecAt, h0, List.getElem?_eq_getElem hlt]

theorem vecSet_of_range {v : List Toy} {i : Int} (t : Toy) (h0 : 0 ≤ i) (h1 : i < v.length) :
    vecSet v i t = some (v.set i.toNat t) := by
  simp [vecSet, h0, h1]

theorem vecErase_of_range {v : List Toy} {i : Int} (h0 : 0 ≤ i) (h1 : i < v.length) :
    vecErase v i = some (v.eraseIdx i.toNat) := by
  simp [vecErase, h0, h1]

theorem vecSet_eq_some {v v1 : List Toy} {i : Int} {t : Toy} (h : vecSet v i t = some v1) :
    0 ≤ i ∧ i < v.length ∧ v1 = v.set i.toNat t := by
  unfold vecSet at h
  split at h
  · rename_i hr
    simp at h
    exact ⟨hr.1, hr.2, h.symm⟩
  · simp at h

theorem vecErase_eq_some {v v1 : List Toy} {i : Int} (h : vecErase v i = some v1) :
    0 ≤ i ∧ i < v.length ∧ v1 = v.eraseIdx i.toNat := by
  unfold vecErase at h
  split at h
  · rename_i hr
    simp at h
    exact ⟨hr.1, hr.2, h.symm⟩
  · simp at h

theorem length_eraseIdx_toNat {v : List Toy} {i : Int} (h0 : 0 ≤ i) (h1 : i < v.length) :
    ((v.eraseIdx i.toNat).length : Int) = (v.length : Int) - 1 := by
  have hlt : i.toNat < v.length := by omega
  rw [List.length_eraseIdx, if_pos hlt]
  omega

theorem find_last_not_of_eq_none {d : List Char} {c : Char} :
    find_last_not_of d c = none ↔ ∀ x ∈ d, x = c := by
  induction d with
  | nil => simp [find_last_not_of]
  | cons x xs ih =>
    unfold find_last_not_of
    cases h : find_last_not_of xs c with
    | some k =>
      have : ¬ ∀ y ∈ xs, y = c := fun hall => by
        rw [ih.mpr hall] at h
        exact Option.noConfusion h
      constructor
      · intro h1
        exact Option.noConfusion h1
      · intro hall
        exact absurd (fun y hy => hall y (List.mem_cons_of_mem _ hy)) this
    | none =>
      have hall := ih.mp h
      by_cases hx : x = c
      · subst hx
        simpa using hall
      · simp [hx]

/-- The position arithmetic of `erase(find_last_not_of(c) + 1, npos)` keeps exactly the text
without its trailing run of `c`. -/
theorem take_find_last_not_of (d : List Char) (c : Char) :
    d.take (match find_last_not_of d c with
      | some k => k + 1
      | none => 0) = d.rdropWhile (fun x => x == c) := by
  induction d with
  | nil => simp [find_last_not_of]
  | cons x xs ih =>
    unfold find_last_not_of
    cases h : find_last_not_of xs c with
    | some k =>
      rw [h] at ih
      simp only [List.take_succ_cons]
      rw [ih]
      have hne : xs.rdropWhile (fun x => x == c) ≠ [] := by
        intro hnil
        rw [List.rdropWhile_eq_nil_iff] at hnil
        have : find_last_not_of xs c = none :=
          find_last_not_of_eq_none.mpr fun y hy => by simpa using hnil y hy
        rw [this] at h
        exact Option.noConfusion h
      have hne2 : xs.reverse.dropWhile (fun x => x == c) ≠ [] := by
        intro h2
        apply hne
        simp [List.rdropWhile, h2]
      simp only [List.rdropWhile, List.reverse_cons, List.dropWhile_append]
      simp [hne2]
    | none =>
      have hall := find_last_not_of_eq_none.mp h
      have hall2 : ∀ a ∈ xs.reverse, (fun x => x == c) a = true := by
        intro a ha
        simpa using hall a (List.mem_reverse.mp ha)
      simp only [List.rdropWhile, List.reverse_cons]
      rw [List.dropWhile_append_of_pos hall2]
      by_cases hx : x = c
      · simp [hx]
      · simp [hx]

/-- The code's trimming is the specification's trimming whenever the text is not made of
`'0'` characters only (then `back()` is called on an empty string). -/
theorem trimPriceStr_eq_trimSpec {d : List Char} (h : ∃ x ∈ d, x ≠ '0') :
    trimPriceStr d = some (trimSpec d) := by
  have hne : d.rdropWhile (fun x => x == '0') ≠ [] := by
    intro hnil
    rw [List.rdropWhile_eq_nil_iff] at hnil
    obtain ⟨x, hx, hx0⟩ := h
    exact hx0 (by simpa using hnil x hx)
  unfold trimPriceStr trimSpec
  simp only [take_find_last_not_of]
  cases hl : (d.rdropWhile (fun x => x == '0')).getLast? with
  | none => exact absurd (List.getLast?_eq_none_iff.mp hl) hne
  | some c =>
    by_cases hc : c = '.'
    · simp [hc]
    · simp [hc]

theorem dot_mem_to_string (p : Price) : '.' ∈ to_string p := by
  simp [to_string]

theorem trimPriceStr_to_string (p : Price) :
    trimPriceStr (to_string p) = some (trimSpec (to_string p)) :=
  trimPriceStr_eq_trimSpec ⟨'.', dot_mem_to_string p, by decide⟩

/-! ## The selection invariant -/

theorem selInRange_initial (uninit : App) : selInRange (initial uninit) := by
  intro _
  simp [initial, seededStore]

theorem selInRange_layout {s : App} (h : selInRange s) : selInRange (layout s) := h

theorem rowHit_lt {w h mx my : Int} {n i : Nat} (hr : rowHit w h mx my n = some i) : i < n := by
  unfold rowHit at hr
  exact List.mem_range.mp (List.mem_of_find?_eq_some hr)

theorem selInRange_storeUp {s s1 : App} (hinv : selInRange s) (h : storeUp s = some s1) :
    selInRange s1 := by
  unfold selInRange at hinv ⊢
  unfold storeUp at h
  split_ifs at h with h1
  · cases h
    intro hne
    have := hinv hne
    simp only
    omega
  · cases h
    exact hinv

theorem selInRange_storeDown {s s1 : App} (hinv : selInRange s) (h : storeDown s = some s1) :
    selInRange s1 := by
  unfold selInRange at hinv ⊢
  unfold storeDown at h
  split_ifs at h with h1
  · cases h
    intro hne
    have := hinv hne
    simp only
    omega
  · cases h
    exact hinv

theorem selInRange_storeAdd {s s1 : App} (h : storeAdd s = some s1) : selInRange s1 := by
  unfold storeAdd at h
  cases h
  intro _
  simp

theorem selInRange_storeDelete {s s1 : App} (hinv : selInRange s)
    (h : storeDelete s = some s1) : selInRange s1 := by
  unfold selInRange at hinv ⊢
  unfold storeDelete at h
  split_ifs at h with hg hpos
  · obtain ⟨store1, he, h⟩ := Option.bind_eq_some.mp h
    obtain ⟨h0, hl, rfl⟩ := vecErase_eq_some he
    have hlen := length_eraseIdx_toNat h0 hl
    cases h
    intro hne
    have hpos1 : 0 < (s.store.eraseIdx s.storeSelectedIndex.toNat).length :=
      List.length_pos.mpr hne
    simp only
    omega
  · obtain ⟨store1, he, h⟩ := Option.bind_eq_some.mp h
    obtain ⟨h0, hl, rfl⟩ := vecErase_eq_some he
    have hlen := length_eraseIdx_toNat h0 hl
    cases h
    intro hne
    have hpos1 : 0 < (s.store.eraseIdx s.storeSelectedIndex.toNat).length :=
      List.length_pos.mpr hne
    simp only
    omega
  · cases h
    exact hinv

theorem selInRange_storeSell {s s1 : App} (hinv : selInRange s)
    (h : storeSell s = some s1) : selInRange s1 := by
  unfold selInRange at hinv ⊢
  unfold storeSell at h
  split_ifs at h with hg
  · obtain ⟨t, ht, h⟩ := Option.bind_eq_some.mp h
    split_ifs at h with hq hq1
    · obtain ⟨store1, he, h⟩ := Option.bind_eq_some.mp h
      obtain ⟨h0, hl, rfl⟩ := vecErase_eq_some he
      have hlen := length_eraseIdx_toNat h0 hl
      split_ifs at h with hge
      · cases h
        intro hne
        have hpos1 : 0 < (s.store.eraseIdx s.storeSelectedIndex.toNat).length :=
          List.length_pos.mpr hne
        simp only
        omega
      · cases h
        intro hne
        simp only
        omega
    · obtain ⟨store1, he, h⟩ := Option.bind_eq_some.mp h
      obtain ⟨h0, hl, rfl⟩ := vecSet_eq_some he
      cases h
      intro _
      simp only [List.length_set]
      exact ⟨h0, hl⟩
    · cases h
      exact hinv
  · cases h
    exact hinv

theorem selInRange_storeEdit {s s1 : App} (hinv : selInRange s)
    (h : storeEdit s = some s1) : selInRange s1 := by
  unfold storeEdit at h
  split_ifs at h with hg
  · obtain ⟨t, ht, h⟩ := Option.bind_eq_some.mp h
    obtain ⟨r, hr, h⟩ := Option.bind_eq_some.mp h
    cases h
    exact hinv
  · cases h
    exact hinv

theorem selInRange_storeRow {s s1 : App} {mx my : Int} (hinv : selInRange s)
    (h : storeRow s mx my = some s1) : selInRange s1 := by
  unfold storeRow at h
  split at h
  · rename_i i hi
    have hlt := rowHit_lt hi
    cases h
    intro _
    simp only
    omega
  · cases h
    exact hinv

theorem selInRange_clickStore {s s1 : App} {mx my : Int} (hinv : selInRange s)
    (h : clickStore s mx my = some s1) : selInRange s1 := by
  unfold clickStore at h
  split_ifs at h
  · exact selInRange_storeUp hinv h
  · exact selInRange_storeDown hinv h
  · exact selInRange_storeAdd h
  · exact selInRange_storeDelete hinv h
  · exact selInRange_storeSell hinv h
  · exact selInRange_storeEdit hinv h
  · cases h
    exact hinv
  · exact selInRange_storeRow hinv h

theorem selInRange_saveClicked {stof : List Char → Option Price} {s s1 : App}
    (hinv : selInRange s) (h : saveClicked stof s = some s1) : selInRange s1 := by
  unfold saveClicked at h
  split_ifs at h with hg
  · obtain ⟨t, ht, h⟩ := Option.bind_eq_some.mp h
    obtain ⟨store1, he, h⟩ := Option.bind_eq_some.mp h
    obtain ⟨h0, hl, rfl⟩ := vecSet_eq_some he
    cases h
    intro _
    simp only [List.length_set]
    exact ⟨h0, hl⟩
  · cases h
    exact hinv

theorem selInRange_enterCommit {stof : List Char → Option Price} {s s1 : App}
    (hinv : selInRange s) (h : enterCommit stof s = some s1) : selInRange s1 := by
  unfold enterCommit at h
  split_ifs at h with hg
  · obtain ⟨t, ht, h⟩ := Option.bind_eq_some.mp h
    obtain ⟨store1, he, h⟩ := Option.bind_eq_some.mp h
    obtain ⟨h0, hl, rfl⟩ := vecSet_eq_some he
    cases h
    intro _
    simp only [List.length_set]
    exact ⟨h0, hl⟩
  · cases h
    exact hinv

theorem selInRange_setCurrentField {s : App} (v : List Char) (hinv : selInRange s) :
    selInRange (setCurrentField s v) := by
  unfold setCurrentField
  split_ifs <;> exact hinv

theorem selInRange_dispatch {stof : List Char → Option Price} {s s1 : App} {e : Event}
    (hinv : selInRange s) (h : dispatch stof s e = some s1) : selInRange s1 := by
  cases e with
  | QUIT => cases h; exact hinv
  | WINDOWEVENT_RESIZED a b => cases h; exact hinv
  | OTHER => cases h; exact hinv
  | MOUSEBUTTONDOWN mx my =>
    simp only [dispatch] at h
    split_ifs at h
    · unfold clickMenu at h
      split_ifs at h
      · cases h
        intro hne
        exact ⟨le_refl _, by simpa using List.length_pos.mpr hne⟩
      · cases h; exact hinv
      · cases h; exact hinv
    · exact selInRange_clickStore hinv h
    · unfold clickEdit at h
      split_ifs at h
      · cases h; exact hinv
      · cases h; exact hinv
      · cases h; exact hinv
      · exact selInRange_saveClicked hinv h
      · cases h; exact hinv
      · cases h; exact hinv
    · cases h; exact hinv
  | TEXTINPUT text =>
    simp only [dispatch] at h
    split_ifs at h
    · unfold textInput at h
      split_ifs at h <;> (cases h; exact hinv)
    · cases h; exact hinv
  | KEYDOWN sym =>
    simp only [dispatch] at h
    split_ifs at h
    · unfold keyDown at h
      split_ifs at h
      · split at h
        · cases h
          exact selInRange_setCurrentField _ hinv
        · cases h; exact hinv
      · cases h; exact hinv
      · cases h; exact hinv
      · exact selInRange_enterCommit hinv h
      · cases h; exact hinv
      · cases h; exact hinv
    · cases h; exact hinv

theorem selInRange_of_reachable {stof : List Char → Option Price} {uninit s : App}
    (h : Reachable stof uninit s) : selInRange s := by
  induction h with
  | init => exact selInRange_initial uninit
  | event e _ hstep ih => exact selInRange_dispatch ih hstep
  | frameEnd _ ih => exact selInRange_layout ih

/-! ## No out-of-range access on states that satisfy the selection invariant -/

theorem storeDelete_defined {s : App} (hinv : selInRange s) : ∃ s1, storeDelete s = some s1 := by
  unfold storeDelete
  split_ifs with hg hpos
  · simp only [Bool.and_eq_true, Bool.not_eq_true', decide_eq_true_eq] at hg
    have hne : s.store ≠ [] := by
      intro h
      simp [h] at hg
    rw [vecErase_of_range (hinv hne).1 hg.2]
    exact ⟨_, rfl⟩
  · simp only [Bool.and_eq_true, Bool.not_eq_true', decide_eq_true_eq] at hg
    have hne : s.store ≠ [] := by
      intro h
      simp [h] at hg
    rw [vecErase_of_range (hinv hne).1 hg.2]
    exact ⟨_, rfl⟩
  · exact ⟨_, rfl⟩

theorem storeSell_defined {s : App} (hinv : selInRange s) : ∃ s1, storeSell s = some s1 := by
  unfold storeSell
  split_ifs with hg
  · simp only [Bool.and_eq_true, Bool.not_eq_true', decide_eq_true_eq] at hg
    have hne : s.store ≠ [] := by
      intro h
      simp [h] at hg
    have h0 := (hinv hne).1
    obtain ⟨t, ht, -⟩ := vecAt_of_range h0 hg.2
    rw [ht]
    simp only [Option.some_bind]
    split_ifs with hq hq1
    · rw [vecErase_of_range h0 hg.2]
      simp only [Option.some_bind]
      split_ifs <;> exact ⟨_, rfl⟩
    · rw [vecSet_of_range _ h0 hg.2]
      exact ⟨_, rfl⟩
    · exact ⟨_, rfl⟩
  · exact ⟨_, rfl⟩

theorem storeEdit_defined (s : App) : ∃ s1, storeEdit s = some s1 := by
  unfold storeEdit
  split_ifs with hg
  · simp only [Bool.and_eq_true, decide_eq_true_eq] at hg
    obtain ⟨t, ht, -⟩ := vecAt_of_range hg.1 hg.2
    rw [ht]
    simp only [Option.some_bind, trimPriceStr_to_string]
    exact ⟨_, rfl⟩
  · exact ⟨_, rfl⟩

theorem saveClicked_defined (stof : List Char → Option Price) (s : App) :
    ∃ s1, saveClicked stof s = some s1 := by
  unfold saveClicked
  split_ifs with hg
  · simp only [Bool.and_eq_true, decide_eq_true_eq] at hg
    obtain ⟨t, ht, -⟩ := vecAt_of_range hg.1 hg.2
    rw [ht]
    simp only [Option.some_bind]
    rw [vecSet_of_range _ hg.1 hg.2]
    exact ⟨_, rfl⟩
  · exact ⟨_, rfl⟩

theorem enterCommit_defined (stof : List Char → Option Price) (s : App) :
    ∃ s1, enterCommit stof s = some s1 := by
  unfold enterCommit
  split_ifs with hg
  · simp only [Bool.and_eq_true, decide_eq_true_eq] at hg
    obtain ⟨t, ht, -⟩ := vecAt_of_range hg.1 hg.2
    rw [ht]
    simp only [Option.some_bind]
    rw [vecSet_of_range _ hg.1 hg.2]
    exact ⟨_, rfl⟩
  · exact ⟨_, rfl⟩

theorem dispatch_defined (stof : List Char → Option Price) {s : App} (hinv : selInRange s)
    (e : Event) : ∃ s1, dispatch stof s e = some s1 := by
  cases e with
  | QUIT => exact ⟨_, rfl⟩
  | WINDOWEVENT_RESIZED a b => exact ⟨_, rfl⟩
  | OTHER => exact ⟨_, rfl⟩
  | MOUSEBUTTONDOWN mx my =>
    simp only [dispatch]
    split_ifs
    · unfold clickMenu
      split_ifs <;> exact ⟨_, rfl⟩
    · unfold clickStore
      split_ifs
      · unfold storeUp
        split_ifs <;> exact ⟨_, rfl⟩
      · unfold storeDown
        split_ifs <;> exact ⟨_, rfl⟩
      · exact ⟨_, rfl⟩
      · exact storeDelete_defined hinv
      · exact storeSell_defined hinv
      · exact storeEdit_defined s
      · exact ⟨_, rfl⟩
      · unfold storeRow
        split <;> exact ⟨_, rfl⟩
    · unfold clickEdit
      split_ifs
      · exact ⟨_, rfl⟩
      · exact ⟨_, rfl⟩
      · exact ⟨_, rfl⟩
      · exact saveClicked_defined stof s
      · exact ⟨_, rfl⟩
      · exact ⟨_, rfl⟩
    · exact ⟨_, rfl⟩
  | TEXTINPUT text =>
    simp only [dispatch]
    split_ifs
    · unfold textInput
      split_ifs <;> exact ⟨_, rfl⟩
    · exact ⟨_, rfl⟩
  | KEYDOWN sym =>
    simp only [dispatch]
    split_ifs
    · unfold keyDown
      split_ifs
      · split <;> exact ⟨_, rfl⟩
      · exact ⟨_, rfl⟩
      · exact ⟨_, rfl⟩
      · exact enterCommit_defined stof s
      · exact ⟨_, rfl⟩
      · exact ⟨_, rfl⟩
    · exact ⟨_, rfl⟩

theorem reachable_dispatchAll {stof : List Char → Option Price} {uninit : App} :
    ∀ (es : List Event) {s s1 : App}, Reachable stof uninit s →
      dispatchAll stof s es = some s1 → Reachable stof uninit s1
  | [], s, s1, hr, h => by
    simp only [dispatchAll, Option.some.injEq] at h
    exact h ▸ hr
  | e :: es, s, s1, hr, h => by
    simp only [dispatchAll] at h
    obtain ⟨s2, h2, h3⟩ := Option.bind_eq_some.mp h
    exact reachable_dispatchAll es (Reachable.event e hr h2) h3

theorem reachable_firstFrame (stof : List Char → Option Price) :
    Reachable stof blank firstFrame :=
  Reachable.frameEnd Reachable.init

/-! ## C1 -/

/-- C1. In every state reachable from the entry state of `main` (seeded store, selection 0,
Menu; any contents of the unassigned button rectangles) by dispatched events and frame ends,
a non-empty item sequence has `0 ≤ storeSelectedIndex < count`, and the dispatch of every
further event is defined: each `store[storeSelectedIndex]` read or write and each `erase`
of Delete, Sell, Edit seeding and Save/Enter commit is made with an index in range. -/
theorem C1_selection_in_range (stof : List Char → Option Price) (uninit s : App)
    (hreach : Reachable stof uninit s) :
    (s.store ≠ [] →
        0 ≤ s.storeSelectedIndex ∧ s.storeSelectedIndex < (s.store.length : Int)) ∧
      ∀ e : Event, ∃ s1, dispatch stof s e = some s1 :=
  ⟨selInRange_of_reachable hreach, dispatch_defined stof (selInRange_of_reachable hreach)⟩

/-- C1 at the state reached from the first frame by Play, Down, Down and fifteen clicks on
Sell: the third item is sold out and removed, two items are left and the selection is 1. -/
theorem C1_selection_in_range_witness :
    ∃ s, dispatchAll stofDec firstFrame soldOutRun = some s ∧
      Reachable stofDec blank s ∧ s.store.length = 2 ∧ s.storeSelectedIndex = 1 ∧
      (s.store ≠ [] →
        0 ≤ s.storeSelectedIndex ∧ s.storeSelectedIndex < (s.store.length : Int)) ∧
      ∀ e : Event, ∃ s1, dispatch stofDec s e = some s1 := by
  have hsome : (dispatchAll stofDec firstFrame soldOutRun).isSome = true := by decide!
  obtain ⟨s, hs⟩ := Option.isSome_iff_exists.mp hsome
  have hlen : (dispatchAll stofDec firstFrame soldOutRun).map (fun a => a.store.length) =
      some 2 := by decide!
  have hsel : (dispatchAll stofDec firstFrame soldOutRun).map (fun a => a.storeSelectedIndex) =
      some 1 := by decide!
  rw [hs] at hlen hsel
  have hr : Reachable stofDec blank s :=
    reachable_dispatchAll soldOutRun (reachable_firstFrame stofDec) hs
  have hc := C1_selection_in_range stofDec blank s hr
  exact ⟨s, hs, hr, by simpa using hlen, by simpa using hsel, hc.1, hc.2⟩

/-! ## C2: Sell -/

theorem clickStore_of_hitsSell {s : App} {mx my : Int} (h : hitsSell s mx my = true) :
    clickStore s mx my = storeSell s := by
  simp only [hitsSell, Bool.and_eq_true, Bool.not_eq_true'] at h
  obtain ⟨⟨⟨⟨h1, h2⟩, h3⟩, h4⟩, h5⟩ := h
  simp [clickStore, h1, h2, h3, h4, h5]

theorem clickStore_of_hitsDelete {s : App} {mx my : Int} (h : hitsDelete s mx my = true) :
    clickStore s mx my = storeDelete s := by
  simp only [hitsDelete, Bool.and_eq_true, Bool.not_eq_true'] at h
  obtain ⟨⟨⟨h1, h2⟩, h3⟩, h4⟩ := h
  simp [clickStore, h1, h2, h3, h4]

theorem clickStore_of_hitsEdit {s : App} {mx my : Int} (h : hitsEdit s mx my = true) :
    clickStore s mx my = storeEdit s := by
  simp only [hitsEdit, Bool.and_eq_true, Bool.not_eq_true'] at h
  obtain ⟨⟨⟨⟨⟨h1, h2⟩, h3⟩, h4⟩, h5⟩, h6⟩ := h
  simp [clickStore, h1, h2, h3, h4, h5, h6]

theorem dispatch_click_store (stof : List Char → Option Price) {s : App}
    (hs : s.state = AppState.STORE) (mx my : Int) :
    dispatch stof s (Event.MOUSEBUTTONDOWN mx my) = clickStore s mx my := by
  simp [dispatch, hs]

theorem getElem?_lt {v : List Toy} {n : Nat} {t : Toy} (h : v[n]? = some t) : n < v.length :=
  (List.getElem?_eq_some.mp h).1

theorem sel_lt_of_get? {v : List Toy} {i : Int} {t : Toy} (h0 : 0 ≤ i)
    (h : v[i.toNat]? = some t) : i < (v.length : Int) := by
  have := getElem?_lt h
  omega

theorem guard_of_get? {v : List Toy} {i : Int} {t : Toy} (h0 : 0 ≤ i)
    (h : v[i.toNat]? = some t) :
    (!v.isEmpty && decide (i < (v.length : Int))) = true := by
  have hl := sel_lt_of_get? h0 h
  have hne : v ≠ [] := by
    intro hnil
    rw [hnil] at hl
    simp at hl
    omega
  simp [hl, hne]

theorem vecAt_of_get? {v : List Toy} {i : Int} {t : Toy} (h0 : 0 ≤ i)
    (h : v[i.toNat]? = some t) : vecAt v i = some t := by
  simp [vecAt, h0, h]

/-- One Sell on an item with more than one unit. -/
theorem storeSell_decrement {s : App} {t : Toy} (h0 : 0 ≤ s.storeSelectedIndex)
    (hget : s.store[s.storeSelectedIndex.toNat]? = some t) (hq : 1 < t.quantity) :
    storeSell s = some { s with
      store := s.store.set s.storeSelectedIndex.toNat { t with quantity := t.quantity - 1 },
      balance := fadd s.balance t.price } := by
  have hl := sel_lt_of_get? h0 hget
  unfold storeSell
  rw [if_pos (guard_of_get? h0 hget), vecAt_of_get? h0 hget]
  simp only [Option.some_bind]
  rw [if_pos (by omega), if_neg (by omega), vecSet_of_range _ h0 hl]
  rfl

/-- One Sell on an item with exactly one unit. -/
theorem storeSell_last {s : App} {t : Toy} (h0 : 0 ≤ s.storeSelectedIndex)
    (hget : s.store[s.storeSelectedIndex.toNat]? = some t) (hq : t.quantity = 1) :
    storeSell s = some { s with
      balance := fadd s.balance t.price,
      store := s.store.eraseIdx s.storeSelectedIndex.toNat,
      storeSelectedIndex :=
        if s.storeSelectedIndex ≥ (s.store.length : Int) - 1 then (s.store.length : Int) - 2
        else s.storeSelectedIndex } := by
  have hl := sel_lt_of_get? h0 hget
  have hlen := length_eraseIdx_toNat h0 hl
  unfold storeSell
  rw [if_pos (guard_of_get? h0 hget), vecAt_of_get? h0 hget]
  simp only [Option.some_bind]
  rw [if_pos (by omega), if_pos hq, vecErase_of_range h0 hl]
  simp only [Option.some_bind, hlen]
  by_cases hge : s.storeSelectedIndex ≥ (s.store.length : Int) - 1
  · rw [if_pos hge, if_pos hge]
    have : (s.store.length : Int) - 1 - 1 = (s.store.length : Int) - 2 := by ring
    rw [this]
  · rw [if_neg hge, if_neg hge]

theorem set_get?_self {v : List Toy} {n : Nat} {t : Toy} (h : v[n]? = some t) :
    v.set n t = v := by
  induction v generalizing n with
  | nil => rfl
  | cons x xs ih =>
    cases n with
    | zero =>
      simp only [List.getElem?_cons_zero, Option.some.injEq] at h
      simp [h]
    | succ m =>
      simp only [List.getElem?_cons_succ] at h
      simp [ih h]

theorem sell_iterate (stof : List Char → Option Price) :
    ∀ (pts : List (Int × Int)) (s : App) (t : Toy), s.state = AppState.STORE →
      0 ≤ s.storeSelectedIndex → s.store[s.storeSelectedIndex.toNat]? = some t →
      (pts.length : Int) < t.quantity →
      (∀ p ∈ pts, hitsSell s p.1 p.2 = true) →
      dispatchAll stof s (clicks pts) = some { s with
        store := s.store.set s.storeSelectedIndex.toNat
          { t with quantity := t.quantity - (pts.length : Int) },
        balance := (fun b => fadd b t.price)^[pts.length] s.balance }
  | [], s, t, _, _, hget, _, _ => by
    have h1 : ({ t with quantity := t.quantity - ((([] : List (Int × Int)).length : Nat) : Int) }
        : Toy) = t := by
      simp
    simp only [clicks, List.map_nil, dispatchAll, h1, set_get?_self hget]
    simp
  | p :: ps, s, t, hs, h0, hget, hq, hhit => by
    have hq1 : 1 < t.quantity := by
      simp only [List.length_cons, Nat.cast_add, Nat.cast_one] at hq
      omega
    have hstep : dispatch stof s (Event.MOUSEBUTTONDOWN p.1 p.2) = _ :=
      (dispatch_click_store stof hs p.1 p.2).trans
        ((clickStore_of_hitsSell (hhit p (List.mem_cons_self _ _))).trans
          (storeSell_decrement h0 hget hq1))
    have hl := getElem?_lt hget
    simp only [clicks, List.map_cons, dispatchAll, hstep, Option.some_bind]
    have ih := sell_iterate stof ps
      { s with
        store := s.store.set s.storeSelectedIndex.toNat { t with quantity := t.quantity - 1 },
        balance := fadd s.balance t.price }
      { t with quantity := t.quantity - 1 } hs h0
      (by simp [List.getElem?_set_self, hl])
      (by
        simp only [List.length_cons, Nat.cast_add, Nat.cast_one] at hq
        simp only
        omega)
      (fun q hq2 => hhit q (List.mem_cons_of_mem _ hq2))
    simp only [clicks] at ih
    rw [ih]
    simp only [List.set_set, List.length_cons, Nat.cast_add, Nat.cast_one,
      Function.iterate_succ_apply]
    congr 2
    congr 2
    ring

theorem eraseIdx_set_self (v : List Toy) (n : Nat) (t : Toy) :
    (v.set n t).eraseIdx n = v.eraseIdx n := by
  induction v generalizing n with
  | nil => rfl
  | cons x xs ih =>
    cases n with
    | zero => rfl
    | succ m => simp [ih m]

theorem dispatch_sell_last (stof : List Char → Option Price) {s : App} {t : Toy}
    {mx my : Int} (hs : s.state = AppState.STORE) (h0 : 0 ≤ s.storeSelectedIndex)
    (hget : s.store[s.storeSelectedIndex.toNat]? = some t) (hq : t.quantity = 1)
    (hhit : hitsSell s mx my = true) :
    dispatch stof s (Event.MOUSEBUTTONDOWN mx my) = some { s with
      balance := fadd s.balance t.price,
      store := s.store.eraseIdx s.storeSelectedIndex.toNat,
      storeSelectedIndex :=
        if s.storeSelectedIndex ≥ (s.store.length : Int) - 1 then (s.store.length : Int) - 2
        else s.storeSelectedIndex } :=
  (dispatch_click_store stof hs mx my).trans
    ((clickStore_of_hitsSell hhit).trans (storeSell_last h0 hget hq))

/-- C2 as stated fails: the balance is a `float` and each credit is a rounded addition.
After Play, Add, an edit of the new item's price to 50000000, two Sells (balance 100000000)
and an edit of its price to 3, a Sell click lowers the quantity from 5 to 4 and leaves the
balance at 100000000: the sum 100000003 is not a float and rounds back. On the seeded
store with selection 2, five Sells give quantity 10 and the balance 3273523/65536
(49.94999694...), which is neither 49.95 nor five times the stored price (the float
nearest to 9.99). -/
theorem C2_sell_credit_exact_counterexample :
    (dispatchAll stofDec firstFrame bigBalanceRun).map
        (fun s => (s.state, s.storeSelectedIndex, hitsSell s 500 550)) =
      some (AppState.STORE, 3, true) ∧
    (dispatchAll stofDec firstFrame bigBalanceRun).map
        (fun s => (s.balance, s.store.map Toy.quantity)) =
      some (100000000, [10, 5, 15, 5]) ∧
    (dispatchAll stofDec firstFrame bigBalanceRun).map (fun s => s.store.map Toy.price) =
      some (seededStore.map Toy.price ++ [3]) ∧
    (dispatchAll stofDec firstFrame (bigBalanceRun ++ [evSell])).map
        (fun s => (s.balance, s.store.map Toy.quantity)) =
      some (100000000, [10, 5, 15, 4]) ∧
    (dispatchAll stofDec (storeWith seededStore 2) (clicks (List.replicate 5 (500, 550)))).map
        (fun s => (s.balance, s.store.map Toy.quantity)) =
      some (3273523 / 65536, [10, 5, 10]) ∧
    (3273523 / 65536 : ℚ) ≠ 4995 / 100 ∧
    (3273523 / 65536 : ℚ) ≠ 5 * roundF32 (999 / 100) := by
  refine ⟨?_, ?_, ?_, ?_, ?_, ?_, ?_⟩ <;> decide!

/-- C2, amended. In Store state with a valid selection whose item `t` has quantity `q`,
`k < q` consecutive clicks that reach the Sell branch change nothing but the selected item's
quantity, which becomes `q - k`, and the balance: the item count, the selection, every other
item and the item's name, description and price stay. The balance becomes the result of `k`
float additions of the price, each sum rounded to the nearest float. When the quantity left
is 1, one more Sell click removes the item (the count drops by one) and adds the price once
more in the same way. -/
theorem C2_sell_decrements_and_credits (stof : List Char → Option Price) (s : App) (t : Toy)
    (pts : List (Int × Int)) (mx my : Int)
    (hs : s.state = AppState.STORE) (h0 : 0 ≤ s.storeSelectedIndex)
    (hget : s.store[s.storeSelectedIndex.toNat]? = some t)
    (hk : (pts.length : Int) < t.quantity)
    (hhit : ∀ p ∈ pts, hitsSell s p.1 p.2 = true) (hlast : hitsSell s mx my = true) :
    ∃ s1, dispatchAll stof s (clicks pts) = some s1 ∧
      s1 = { s with
        store := s.store.set s.storeSelectedIndex.toNat
          { t with quantity := t.quantity - (pts.length : Int) },
        balance := (fun b => fadd b t.price)^[pts.length] s.balance } ∧
      s1.store.length = s.store.length ∧
      s1.storeSelectedIndex = s.storeSelectedIndex ∧
      (∀ j : Nat, j ≠ s.storeSelectedIndex.toNat → s1.store[j]? = s.store[j]?) ∧
      s1.store[s.storeSelectedIndex.toNat]? =
        some { name := t.name, description := t.description, price := t.price,
               quantity := t.quantity - (pts.length : Int) } ∧
      s1.balance = (fun b => fadd b t.price)^[pts.length] s.balance ∧
      (t.quantity - (pts.length : Int) = 1 →
        ∃ s2, dispatch stof s1 (Event.MOUSEBUTTONDOWN mx my) = some s2 ∧
          s2.store = s.store.eraseIdx s.storeSelectedIndex.toNat ∧
          s2.store.length + 1 = s.store.length ∧
          s2.balance = (fun b => fadd b t.price)^[pts.length + 1] s.balance) := by
  have hl := getElem?_lt hget
  refine ⟨_, sell_iterate stof pts s t hs h0 hget hk hhit, rfl, ?_, rfl, ?_, ?_, rfl, ?_⟩
  · simp
  · intro j hj
    simp only
    rw [List.getElem?_set_ne (Ne.symm hj)]
  · simp only
    rw [List.getElem?_set_self hl]
  · intro hone
    have hget1 : (s.store.set s.storeSelectedIndex.toNat
        { t with quantity := t.quantity - (pts.length : Int) })[s.storeSelectedIndex.toNat]? =
        some { t with quantity := t.quantity - (pts.length : Int) } :=
      List.getElem?_set_self hl
    have hstep := @dispatch_sell_last stof
      { s with
        store := s.store.set s.storeSelectedIndex.toNat
          { t with quantity := t.quantity - (pts.length : Int) },
        balance := (fun b => fadd b t.price)^[pts.length] s.balance }
      { t with quantity := t.quantity - (pts.length : Int) } mx my hs h0 hget1 hone hlast
    refine ⟨_, hstep, ?_, ?_, ?_⟩
    · simp only
      exact eraseIdx_set_self _ _ _
    · simp only [eraseIdx_set_self]
      rw [List.length_eraseIdx, if_pos hl]
      omega
    · simp only
      rw [Function.iterate_succ_apply']

/-- C2 amended, on the seeded store: selection 2 (Toy Car, the float nearest to 9.99,
quantity 15), five clicks on Sell in the 800 x 600 layout leave quantity 10 and the balance
3273523/65536, that is 49.94999694... -/
theorem C2_sell_decrements_and_credits_witness :
    ∃ s1, dispatchAll stofDec (storeWith seededStore 2)
        (clicks (List.replicate 5 (500, 550))) = some s1 ∧
      s1.store.map Toy.quantity = [10, 5, 10] ∧
      s1.store.map Toy.name = seededStore.map Toy.name ∧
      s1.store.map Toy.price = seededStore.map Toy.price ∧
      s1.storeSelectedIndex = 2 ∧ s1.balance = 3273523 / 65536 := by
  obtain ⟨s1, hrun, heq, -⟩ := C2_sell_decrements_and_credits stofDec (storeWith seededStore 2)
    { name := "Toy Car".toList, description := "A speedy little car for racing.".toList,
      price := roundF32 (999 / 100), quantity := 15 }
    (List.replicate 5 (500, 550)) 500 550 (by decide) (by decide) (by decide!) (by decide)
    (by decide) (by decide)
  subst heq
  exact ⟨_, hrun, by decide!, by decide!, by decide!, by decide!, by decide!⟩

/-! ## C3: Sell of the last unit against Delete -/

/-- One Delete with a valid selection. -/
theorem storeDelete_valid {s : App} {t : Toy} (h0 : 0 ≤ s.storeSelectedIndex)
    (hget : s.store[s.storeSelectedIndex.toNat]? = some t) :
    storeDelete s = some { s with
      store := s.store.eraseIdx s.storeSelectedIndex.toNat,
      storeSelectedIndex :=
        if s.storeSelectedIndex > 0 then s.storeSelectedIndex - 1 else s.storeSelectedIndex } := by
  have hl := sel_lt_of_get? h0 hget
  unfold storeDelete
  rw [if_pos (guard_of_get? h0 hget), vecErase_of_range h0 hl]
  simp only [Option.some_bind]
  by_cases hpos : s.storeSelectedIndex > 0
  · rw [if_pos hpos, if_pos hpos]
  · rw [if_neg hpos, if_neg hpos]

/-- C3 as stated fails. From the first frame, Play, Down and four Sells leave the second
item selected with one unit; a Sell click then keeps the selection at 1 where a Delete click
moves it to 0 (same item sequence). From Play, Delete, Delete and fourteen Sells, the only
item has one unit; a Sell click empties the sequence and sets the selection to -1. -/
theorem C3_sell_equals_delete_counterexample :
    (dispatchAll stofDec firstFrame dollLastUnitRun).map
        (fun s => (s.state, s.storeSelectedIndex, s.store.map Toy.quantity,
          hitsSell s 500 550, hitsDelete s 400 550)) =
      some (AppState.STORE, 1, [10, 1, 15], true, true) ∧
    (dispatchAll stofDec firstFrame (dollLastUnitRun ++ [evSell])).map
        (fun s => (s.store.map Toy.quantity, s.storeSelectedIndex)) = some ([10, 15], 1) ∧
    (dispatchAll stofDec firstFrame (dollLastUnitRun ++ [evDelete])).map
        (fun s => (s.store.map Toy.quantity, s.storeSelectedIndex)) = some ([10, 15], 0) ∧
    (dispatchAll stofDec firstFrame carLastUnitRun).map
        (fun s => (s.state, s.storeSelectedIndex, s.store.map Toy.quantity,
          hitsSell s 500 550)) = some (AppState.STORE, 0, [1], true) ∧
    (dispatchAll stofDec firstFrame (carLastUnitRun ++ [evSell])).map
        (fun s => (s.store.map Toy.quantity, s.storeSelectedIndex)) = some ([], -1) := by
  refine ⟨?_, ?_, ?_, ?_, ?_⟩ <;> decide!

/-- C3, amended. In Store state with a valid selection whose item has quantity 1, a Sell
click and a Delete click from the same state leave the same item sequence (the selected item
erased); Sell adds the price to the balance once (a float addition), Delete leaves the
balance. The selection rules differ:
Sell keeps the index unless it was the last one, which becomes the new last index (that is
-1 when the sequence becomes empty); Delete moves the index down by one unless it is 0. Both
leave a valid selection when the resulting sequence is not empty, and they agree exactly
when there were at least two items and the selection was 0 or the last index. -/
theorem C3_sell_last_unit_and_delete (stof : List Char → Option Price) (s : App) (t : Toy)
    (mx my dx dy : Int)
    (hs : s.state = AppState.STORE) (h0 : 0 ≤ s.storeSelectedIndex)
    (hget : s.store[s.storeSelectedIndex.toNat]? = some t) (hq : t.quantity = 1)
    (hsell : hitsSell s mx my = true) (hdel : hitsDelete s dx dy = true) :
    ∃ a b, dispatch stof s (Event.MOUSEBUTTONDOWN mx my) = some a ∧
      dispatch stof s (Event.MOUSEBUTTONDOWN dx dy) = some b ∧
      a.store = s.store.eraseIdx s.storeSelectedIndex.toNat ∧ b.store = a.store ∧
      a.balance = fadd s.balance t.price ∧ b.balance = s.balance ∧
      a.storeSelectedIndex =
        (if s.storeSelectedIndex ≥ (s.store.length : Int) - 1 then (s.store.length : Int) - 2
         else s.storeSelectedIndex) ∧
      b.storeSelectedIndex =
        (if s.storeSelectedIndex > 0 then s.storeSelectedIndex - 1 else s.storeSelectedIndex) ∧
      (a.store ≠ [] →
        0 ≤ a.storeSelectedIndex ∧ a.storeSelectedIndex < (a.store.length : Int)) ∧
      (b.store ≠ [] →
        0 ≤ b.storeSelectedIndex ∧ b.storeSelectedIndex < (b.store.length : Int)) ∧
      (a.store = [] → a.storeSelectedIndex = -1 ∧ b.storeSelectedIndex = 0) ∧
      (a.storeSelectedIndex = b.storeSelectedIndex ↔
        2 ≤ s.store.length ∧
          (s.storeSelectedIndex = 0 ∨ s.storeSelectedIndex = (s.store.length : Int) - 1)) := by
  have hl := sel_lt_of_get? h0 hget
  have hlen := length_eraseIdx_toNat h0 hl
  have ha := dispatch_sell_last stof hs h0 hget hq hsell
  have hb := (dispatch_click_store stof hs dx dy).trans
    ((clickStore_of_hitsDelete hdel).trans (storeDelete_valid h0 hget))
  refine ⟨_, _, ha, hb, rfl, rfl, rfl, rfl, rfl, rfl, ?_, ?_, ?_, ?_⟩
  · intro hne
    have hpos : 0 < (s.store.eraseIdx s.storeSelectedIndex.toNat).length :=
      List.length_pos.mpr hne
    simp only
    split_ifs <;> omega
  · intro hne
    have hpos : 0 < (s.store.eraseIdx s.storeSelectedIndex.toNat).length :=
      List.length_pos.mpr hne
    simp only
    split_ifs <;> omega
  · intro hnil
    simp only at hnil
    have h1 : ((s.store.eraseIdx s.storeSelectedIndex.toNat).length : Int) = 0 := by
      rw [hnil]
      rfl
    simp only
    split_ifs <;> omega
  · simp only
    split_ifs <;> omega

/-- C3 amended, on a store of three items with the second one at one unit and selected: the Sell
click keeps the selection 1, the Delete click moves it to 0. -/
theorem C3_sell_last_unit_and_delete_witness :
    ∃ a b, dispatch stofDec
        (storeWith [newToy, { newToy with quantity := 1 }, newToy] 1)
        (Event.MOUSEBUTTONDOWN 500 550) = some a ∧
      dispatch stofDec
        (storeWith [newToy, { newToy with quantity := 1 }, newToy] 1)
        (Event.MOUSEBUTTONDOWN 400 550) = some b ∧
      a.store = b.store ∧ a.store.length = 2 ∧
      a.storeSelectedIndex = 1 ∧ b.storeSelectedIndex = 0 ∧ a.balance = newToy.price := by
  obtain ⟨a, b, ha, hb, has, hbs, hab, -, hai, hbi, -⟩ :=
    C3_sell_last_unit_and_delete stofDec
      (storeWith [newToy, { newToy with quantity := 1 }, newToy] 1)
      { newToy with quantity := 1 } 500 550 400 550 (by decide) (by decide) (by decide!)
      (by decide) (by decide) (by decide)
  refine ⟨a, b, ha, hb, hbs.symm, ?_, ?_, ?_, ?_⟩
  · rw [has]
    decide!
  · rw [hai]
    decide
  · rw [hbi]
    decide
  · rw [hab]
    decide!

/-! ## Rendering and parsing lemmas for the price invariant -/

theorem digitChar_isDigit {m : Nat} (h : m < 10) : (Nat.digitChar m).isDigit = true := by
  interval_cases m <;> rfl

theorem toDigitsCore_isDigit : ∀ (fuel n : Nat) (acc : List Char),
    (∀ c ∈ acc, c.isDigit = true) → ∀ c ∈ Nat.toDigitsCore 10 fuel n acc, c.isDigit = true
  | 0, _, acc, hacc => by
    simpa [Nat.toDigitsCore] using hacc
  | fuel + 1, n, acc, hacc => by
    have hd : (Nat.digitChar (n % 10)).isDigit = true := digitChar_isDigit (Nat.mod_lt _ (by decide))
    have hacc1 : ∀ c ∈ Nat.digitChar (n % 10) :: acc, c.isDigit = true := by
      intro c hc
      rcases List.mem_cons.mp hc with h | h
      · rw [h]
        exact hd
      · exact hacc c h
    simp only [Nat.toDigitsCore]
    split_ifs
    · exact hacc1
    · exact toDigitsCore_isDigit fuel (n / 10) _ hacc1

theorem toDigits_isDigit (n : Nat) : ∀ c ∈ Nat.toDigits 10 n, c.isDigit = true :=
  toDigitsCore_isDigit (n + 1) n [] (by simp)

theorem fracDigits_isDigit (m : Nat) : ∀ c ∈ fracDigits m, c.isDigit = true := by
  intro c hc
  simp only [fracDigits, List.mem_cons, List.mem_singleton, List.not_mem_nil, or_false] at hc
  rcases hc with h | h | h | h | h | h <;>
    (rw [h]; exact digitChar_isDigit (Nat.mod_lt _ (by decide)))

theorem to_string_priceChar {p : Price} (hp : 0 ≤ p) : ∀ c ∈ to_string p, priceChar c = true := by
  intro c hc
  unfold to_string at hc
  rw [if_neg (not_lt.mpr hp)] at hc
  simp only [List.nil_append, List.mem_append, List.mem_cons] at hc
  rcases hc with h | h | h
  · simp [priceChar, toDigits_isDigit _ c h]
  · simp [priceChar, h]
  · simp [priceChar, fracDigits_isDigit _ c h]

theorem mem_of_mem_trimSpec {d : List Char} {c : Char} (h : c ∈ trimSpec d) : c ∈ d := by
  unfold trimSpec at h
  have hpre : d.rdropWhile (fun c => c == '0') <+: d := List.rdropWhile_prefix _ _
  dsimp only at h
  split_ifs at h
  · exact hpre.subset (List.mem_of_mem_dropLast h)
  · exact hpre.subset h

theorem pushPriceChars_eq (field text : List Char) :
    pushPriceChars field text = field ++ text.filter priceChar := by
  induction text generalizing field with
  | nil => simp [pushPriceChars]
  | cons c cs ih =>
    unfold pushPriceChars
    by_cases hc : priceChar c = true
    · have hc1 : (c.isDigit || c == '.' || c == ',') = true := hc
      simp [hc1, ih, List.filter_cons, hc]
    · have hc1 : (c.isDigit || c == '.' || c == ',') = false := by
        simpa [priceChar] using hc
      simp only [Bool.not_eq_true] at hc
      simp [hc1, ih, List.filter_cons, hc]

theorem decMagnitude_range {t2 : List Char} {v : Price} (h : decMagnitude t2 = some v) :
    0 ≤ v ∧ v < 2 ^ 128 := by
  unfold decMagnitude at h
  dsimp only at h
  split_ifs at h with h1 h2 h3
  simp only [Option.some.injEq] at h
  rw [← h]
  have hv : (0 : ℚ) ≤ (digitsVal (List.takeWhile Char.isDigit t2 ++
      match List.dropWhile Char.isDigit t2 with
      | '.' :: r => List.takeWhile Char.isDigit r
      | _ => []) : ℚ) / (10 : ℚ) ^ (match List.dropWhile Char.isDigit t2 with
      | '.' :: r => List.takeWhile Char.isDigit r
      | _ => []).length := by positivity
  exact ⟨roundF32_nonneg hv, roundF32_lt_overflow hv (not_le.mp h2)⟩

theorem stofDec_nonneg {t : List Char} {p : Price} (hclean : ∀ c ∈ t, priceChar c = true)
    (h : stofDec t = some p) : 0 ≤ p := by
  have hneg : ((t.dropWhile isspace).head? == some '-') = false := by
    cases hd : (t.dropWhile isspace).head? with
    | none => rfl
    | some c =>
      have hmem : c ∈ t := (List.dropWhile_sublist _).subset (List.mem_of_mem_head? hd)
      have hc := hclean c hmem
      by_cases hcm : c = '-'
      · rw [hcm] at hc
        exact absurd hc (by decide)
      · simp [hcm]
  unfold stofDec at h
  simp only [hneg] at h
  obtain ⟨v, hv, hp⟩ := Option.map_eq_some'.mp h
  simp only [Bool.false_eq_true, if_false] at hp
  rw [← hp]
  exact (decMagnitude_range hv).1

theorem stofDec_range {t : List Char} {p : Price} (h : stofDec t = some p) :
    |p| < 2 ^ 128 := by
  unfold stofDec at h
  obtain ⟨v, hv, hp⟩ := Option.map_eq_some'.mp h
  have hr := decMagnitude_range hv
  have hlt : v < 2 ^ 128 := hr.2
  rw [← hp]
  split_ifs
  · rw [abs_neg, abs_of_nonneg hr.1]
    exact hlt
  · rw [abs_of_nonneg hr.1]
    exact hlt

/-! ## C4: the balance -/

theorem roundF32_zero : roundF32 0 = 0 := by
  simp [roundF32, roundHalfEven]

theorem balance_nonneg_of_pricesOk {s : App} (hok : pricesOk s) : 0 ≤ s.balance := by
  obtain ⟨y, hy, hb⟩ := hok.2.2
  rw [hb]
  exact roundF32_nonneg hy

/-- A float balance is not lowered by the float addition of a non-negative price. -/
theorem le_fadd_of_pricesOk {s : App} (hok : pricesOk s) {p : Price} (hp : 0 ≤ p) :
    s.balance ≤ fadd s.balance p ∧ ∃ y : ℚ, 0 ≤ y ∧ fadd s.balance p = roundF32 y := by
  have hb0 := balance_nonneg_of_pricesOk hok
  obtain ⟨y, hy, hb⟩ := hok.2.2
  refine ⟨?_, s.balance + p, add_nonneg hb0 hp, rfl⟩
  unfold fadd
  have hle : roundF32 y ≤ s.balance + p := by
    rw [← hb]
    exact le_add_of_nonneg_right hp
  have := roundF32_le_roundF32 hy hle
  rw [← hb] at this
  exact this

theorem pricesOk_initial (uninit : App) : pricesOk (initial uninit) := by
  refine ⟨?_, ?_, ?_⟩
  · intro t ht
    simp only [initial, seededStore, List.mem_cons, List.mem_singleton, List.not_mem_nil,
      or_false] at ht
    rcases ht with h | h | h <;> (rw [h]; exact roundF32_nonneg (by norm_num))
  · intro c hc
    simp [initial] at hc
  · exact ⟨0, le_refl _, by simp [initial, roundF32_zero]⟩

theorem pricesOk_storeAdd {s s1 : App} (hok : pricesOk s) (h : storeAdd s = some s1) :
    pricesOk s1 ∧ s1.balance = s.balance := by
  unfold storeAdd at h
  cases h
  refine ⟨⟨?_, hok.2.1, hok.2.2⟩, rfl⟩
  intro t ht
  rcases List.mem_append.mp ht with h1 | h1
  · exact hok.1 t h1
  · rw [List.mem_singleton.mp h1]
    exact roundF32_nonneg (by norm_num)

theorem pricesOk_storeDelete {s s1 : App} (hok : pricesOk s) (h : storeDelete s = some s1) :
    pricesOk s1 ∧ s1.balance = s.balance := by
  unfold storeDelete at h
  split_ifs at h with hg hpos
  · obtain ⟨store1, he, h⟩ := Option.bind_eq_some.mp h
    obtain ⟨-, -, rfl⟩ := vecErase_eq_some he
    cases h
    exact ⟨⟨fun t ht => hok.1 t (List.mem_of_mem_eraseIdx ht), hok.2.1, hok.2.2⟩, rfl⟩
  · obtain ⟨store1, he, h⟩ := Option.bind_eq_some.mp h
    obtain ⟨-, -, rfl⟩ := vecErase_eq_some he
    cases h
    exact ⟨⟨fun t ht => hok.1 t (List.mem_of_mem_eraseIdx ht), hok.2.1, hok.2.2⟩, rfl⟩
  · cases h
    exact ⟨hok, rfl⟩

theorem pricesOk_storeSell {s s1 : App} (hok : pricesOk s) (h : storeSell s = some s1) :
    pricesOk s1 ∧ s.balance ≤ s1.balance ∧ (s.store = [] → s1.balance = s.balance) := by
  unfold storeSell at h
  split_ifs at h with hg
  · obtain ⟨t, ht, h⟩ := Option.bind_eq_some.mp h
    have htmem : t ∈ s.store := List.getElem?_mem (vecAt_eq_some ht).2.2
    have htp : 0 ≤ t.price := hok.1 t htmem
    have hne : s.store ≠ [] := List.ne_nil_of_mem htmem
    obtain ⟨hmono, hrep⟩ := le_fadd_of_pricesOk hok htp
    split_ifs at h with hq hq1
    · obtain ⟨store1, he, h⟩ := Option.bind_eq_some.mp h
      obtain ⟨-, -, rfl⟩ := vecErase_eq_some he
      have hst : ∀ u ∈ s.store.eraseIdx s.storeSelectedIndex.toNat, 0 ≤ u.price :=
        fun u hu => hok.1 u (List.mem_of_mem_eraseIdx hu)
      split_ifs at h with hge
      · cases h
        exact ⟨⟨hst, hok.2.1, hrep⟩, hmono, fun hnil => absurd hnil hne⟩
      · cases h
        exact ⟨⟨hst, hok.2.1, hrep⟩, hmono, fun hnil => absurd hnil hne⟩
    · obtain ⟨store1, he, h⟩ := Option.bind_eq_some.mp h
      obtain ⟨-, -, rfl⟩ := vecSet_eq_some he
      cases h
      refine ⟨⟨?_, hok.2.1, hrep⟩, hmono, fun hnil => absurd hnil hne⟩
      intro u hu
      rcases List.mem_or_eq_of_mem_set hu with h1 | h1
      · exact hok.1 u h1
      · rw [h1]
        exact htp
    · cases h
      exact ⟨hok, le_refl _, fun _ => rfl⟩
  · cases h
    exact ⟨hok, le_refl _, fun _ => rfl⟩

theorem pricesOk_storeEdit {s s1 : App} (hok : pricesOk s) (h : storeEdit s = some s1) :
    pricesOk s1 ∧ s1.balance = s.balance := by
  unfold storeEdit at h
  split_ifs at h with hg
  · obtain ⟨t, ht, h⟩ := Option.bind_eq_some.mp h
    have htmem : t ∈ s.store := List.getElem?_mem (vecAt_eq_some ht).2.2
    rw [trimPriceStr_to_string] at h
    simp only [Option.some_bind, Option.some.injEq] at h
    rw [← h]
    refine ⟨⟨hok.1, ?_, hok.2.2⟩, rfl⟩
    intro c hc
    exact to_string_priceChar (hok.1 t htmem) c (mem_of_mem_trimSpec hc)
  · cases h
    exact ⟨hok, rfl⟩

theorem pricesOk_saveClicked {stof : List Char → Option Price}
    (hstof : ∀ t p, (∀ c ∈ t, priceChar c = true) → stof t = some p → 0 ≤ p)
    {s s1 : App} (hok : pricesOk s) (h : saveClicked stof s = some s1) :
    pricesOk s1 ∧ s1.balance = s.balance := by
  unfold saveClicked at h
  split_ifs at h with hg
  · obtain ⟨t, ht, h⟩ := Option.bind_eq_some.mp h
    have htmem : t ∈ s.store := List.getElem?_mem (vecAt_eq_some ht).2.2
    obtain ⟨store1, he, h⟩ := Option.bind_eq_some.mp h
    obtain ⟨-, -, rfl⟩ := vecSet_eq_some he
    cases h
    refine ⟨⟨?_, hok.2.1, hok.2.2⟩, rfl⟩
    intro u hu
    rcases List.mem_or_eq_of_mem_set hu with h1 | h1
    · exact hok.1 u h1
    · rw [h1]
      cases hp : stof s.editPriceStr with
      | none => exact hok.1 t htmem
      | some v => exact hstof _ v hok.2.1 hp
  · cases h
    exact ⟨hok, rfl⟩

theorem pricesOk_enterCommit {stof : List Char → Option Price}
    (hstof : ∀ t p, (∀ c ∈ t, priceChar c = true) → stof t = some p → 0 ≤ p)
    {s s1 : App} (hok : pricesOk s) (h : enterCommit stof s = some s1) :
    pricesOk s1 ∧ s1.balance = s.balance := by
  unfold enterCommit at h
  split_ifs at h with hg
  · obtain ⟨t, ht, h⟩ := Option.bind_eq_some.mp h
    have htmem : t ∈ s.store := List.getElem?_mem (vecAt_eq_some ht).2.2
    obtain ⟨store1, he, h⟩ := Option.bind_eq_some.mp h
    obtain ⟨-, -, rfl⟩ := vecSet_eq_some he
    cases h
    refine ⟨⟨?_, hok.2.1, hok.2.2⟩, rfl⟩
    intro u hu
    rcases List.mem_or_eq_of_mem_set hu with h1 | h1
    · exact hok.1 u h1
    · rw [h1]
      cases hp : stof s.editPriceStr with
      | none => exact hok.1 t htmem
      | some v => exact hstof _ v hok.2.1 hp
  · cases h
    exact ⟨hok, rfl⟩

theorem pricesOk_textInput {s s1 : App} {text : List Char} (hok : pricesOk s)
    (h : textInput s text = some s1) : pricesOk s1 ∧ s1.balance = s.balance := by
  unfold textInput at h
  split_ifs at h
  all_goals cases h
  all_goals first
    | exact ⟨hok, rfl⟩
    | refine ⟨⟨hok.1, ?_, hok.2.2⟩, rfl⟩
      intro c hc
      simp only [pushPriceChars_eq, List.mem_append, List.mem_filter] at hc
      rcases hc with h1 | h1
      · exact hok.2.1 c h1
      · exact h1.2

theorem pricesOk_setCurrentField {s : App} {f : List Char} (hok : pricesOk s)
    (hf : currentField s = some f) :
    pricesOk (setCurrentField s f.dropLast) ∧
      (setCurrentField s f.dropLast).balance = s.balance := by
  unfold currentField at hf
  unfold setCurrentField
  split_ifs at hf ⊢
  · exact ⟨hok, rfl⟩
  · simp only [Option.some.injEq] at hf
    refine ⟨⟨hok.1, ?_, hok.2.2⟩, rfl⟩
    intro c hc
    exact hok.2.1 c (hf ▸ List.mem_of_mem_dropLast hc)
  · exact ⟨hok, rfl⟩

theorem pricesOk_keyDown {stof : List Char → Option Price}
    (hstof : ∀ t p, (∀ c ∈ t, priceChar c = true) → stof t = some p → 0 ≤ p)
    {s s1 : App} {sym : Key} (hok : pricesOk s) (h : keyDown stof s sym = some s1) :
    pricesOk s1 ∧ s1.balance = s.balance := by
  unfold keyDown at h
  split_ifs at h
  · split at h
    · rename_i f hf
      cases h
      exact pricesOk_setCurrentField hok hf
    · cases h
      exact ⟨hok, rfl⟩
  · cases h
    exact ⟨hok, rfl⟩
  · cases h
    exact ⟨hok, rfl⟩
  · exact pricesOk_enterCommit hstof hok h
  · cases h
    exact ⟨hok, rfl⟩
  · cases h
    exact ⟨hok, rfl⟩

theorem pricesOk_clickStore {s s1 : App} {mx my : Int} (hs : s.state = AppState.STORE)
    (hok : pricesOk s) (h : clickStore s mx my = some s1) :
    pricesOk s1 ∧ s.balance ≤ s1.balance ∧
      (¬ isSellHit s (Event.MOUSEBUTTONDOWN mx my) → s1.balance = s.balance) := by
  have key : ∀ {a : App}, pricesOk a ∧ a.balance = s.balance →
      pricesOk a ∧ s.balance ≤ a.balance ∧
        (¬ isSellHit s (Event.MOUSEBUTTONDOWN mx my) → a.balance = s.balance) :=
    fun ha => ⟨ha.1, le_of_eq ha.2.symm, fun _ => ha.2⟩
  unfold clickStore at h
  split_ifs at h with h1 h2 h3 h4 h5 h6 h7
  · unfold storeUp at h
    split_ifs at h <;> (cases h; exact key ⟨hok, rfl⟩)
  · unfold storeDown at h
    split_ifs at h <;> (cases h; exact key ⟨hok, rfl⟩)
  · exact key (pricesOk_storeAdd hok h)
  · exact key (pricesOk_storeDelete hok h)
  · obtain ⟨ha, hb, hc⟩ := pricesOk_storeSell hok h
    refine ⟨ha, hb, fun hno => hc ?_⟩
    by_contra hne
    apply hno
    refine ⟨mx, my, rfl, hs, ?_, hne⟩
    simp [hitsSell, h1, h2, h3, h4, h5]
  · exact key (pricesOk_storeEdit hok h)
  · cases h
    exact key ⟨hok, rfl⟩
  · unfold storeRow at h
    split at h <;> (cases h; exact key ⟨hok, rfl⟩)

theorem pricesOk_dispatch {stof : List Char → Option Price}
    (hstof : ∀ t p, (∀ c ∈ t, priceChar c = true) → stof t = some p → 0 ≤ p)
    {s s1 : App} {e : Event} (hok : pricesOk s) (h : dispatch stof s e = some s1) :
    pricesOk s1 ∧ s.balance ≤ s1.balance ∧ (¬ isSellHit s e → s1.balance = s.balance) := by
  have key : ∀ {a : App}, pricesOk a ∧ a.balance = s.balance →
      pricesOk a ∧ s.balance ≤ a.balance ∧ (¬ isSellHit s e → a.balance = s.balance) :=
    fun ha => ⟨ha.1, le_of_eq ha.2.symm, fun _ => ha.2⟩
  cases e with
  | QUIT => cases h; exact key ⟨hok, rfl⟩
  | WINDOWEVENT_RESIZED a b => cases h; exact key ⟨hok, rfl⟩
  | OTHER => cases h; exact key ⟨hok, rfl⟩
  | MOUSEBUTTONDOWN mx my =>
    simp only [dispatch] at h
    split_ifs at h with hm hst hed
    · unfold clickMenu at h
      split_ifs at h <;> (cases h; exact key ⟨hok, rfl⟩)
    · exact pricesOk_clickStore hst hok h
    · unfold clickEdit at h
      split_ifs at h
      · cases h; exact key ⟨hok, rfl⟩
      · cases h; exact key ⟨hok, rfl⟩
      · cases h; exact key ⟨hok, rfl⟩
      · exact key (pricesOk_saveClicked hstof hok h)
      · cases h; exact key ⟨hok, rfl⟩
      · cases h; exact key ⟨hok, rfl⟩
    · cases h; exact key ⟨hok, rfl⟩
  | TEXTINPUT text =>
    simp only [dispatch] at h
    split_ifs at h
    · exact key (pricesOk_textInput hok h)
    · cases h; exact key ⟨hok, rfl⟩
  | KEYDOWN sym =>
    simp only [dispatch] at h
    split_ifs at h
    · exact key (pricesOk_keyDown hstof hok h)
    · cases h; exact key ⟨hok, rfl⟩

theorem pricesOk_of_reachable {stof : List Char → Option Price}
    (hstof : ∀ t p, (∀ c ∈ t, priceChar c = true) → stof t = some p → 0 ≤ p)
    {uninit s : App} (h : Reachable stof uninit s) : pricesOk s := by
  induction h with
  | init => exact pricesOk_initial uninit
  | event e _ hstep ih => exact (pricesOk_dispatch hstof ih hstep).1
  | frameEnd _ ih => exact ih

/-- C4. Let `stof` give no negative value on texts made of digits, `.` and `,` (the only
characters a price text can hold). Then in every reachable state the balance is not
negative and no stored price is negative, and every dispatched event leaves the balance at
least as large as it was; the balance is unchanged by every event that is not a click
reaching the Sell branch on a non-empty store. The layout step at a frame end does not touch
the balance. -/
theorem C4_balance_monotone (stof : List Char → Option Price) (uninit s : App)
    (hstof : ∀ t p, (∀ c ∈ t, priceChar c = true) → stof t = some p → 0 ≤ p)
    (hreach : Reachable stof uninit s) :
    0 ≤ s.balance ∧ (∀ t ∈ s.store, 0 ≤ t.price) ∧ (layout s).balance = s.balance ∧
      ∀ (e : Event) (s1 : App), dispatch stof s e = some s1 →
        s.balance ≤ s1.balance ∧ (¬ isSellHit s e → s1.balance = s.balance) := by
  have hok := pricesOk_of_reachable hstof hreach
  exact ⟨balance_nonneg_of_pricesOk hok, hok.1, rfl,
    fun e s1 h => (pricesOk_dispatch hstof hok h).2⟩

/-- C4 with the decimal instance of `stof`, at the state reached by Play, Down, Down and
fifteen Sells (balance 9820569/65536, that is 149.8499...): a further Sell click raises the
balance to 5565317/32768 (169.8399...), a Delete click leaves it. -/
theorem C4_balance_monotone_witness :
    ∃ s, dispatchAll stofDec firstFrame soldOutRun = some s ∧ Reachable stofDec blank s ∧
      s.balance = 9820569 / 65536 ∧ (∀ t ∈ s.store, 0 ≤ t.price) ∧
      (∃ s1, dispatch stofDec s evSell = some s1 ∧ s.balance ≤ s1.balance ∧
        s1.balance = 5565317 / 32768) ∧
      (∃ s2, dispatch stofDec s evDelete = some s2 ∧ s2.balance = s.balance) := by
  have hsome : (dispatchAll stofDec firstFrame soldOutRun).isSome = true := by decide!
  obtain ⟨s, hs⟩ := Option.isSome_iff_exists.mp hsome
  have hbal : (dispatchAll stofDec firstFrame soldOutRun).map (fun a => a.balance) =
      some (9820569 / 65536) := by decide!
  have hsell : ((dispatchAll stofDec firstFrame soldOutRun).bind
      (fun a => dispatch stofDec a evSell)).map (fun a => a.balance) =
      some (5565317 / 32768) := by decide!
  have hdel : ((dispatchAll stofDec firstFrame soldOutRun).bind
      (fun a => dispatch stofDec a evDelete)).isSome = true := by decide!
  have hnot : (dispatchAll stofDec firstFrame soldOutRun).map
      (fun a => hitsSell a 400 550) = some false := by decide!
  rw [hs] at hbal hsell hdel hnot
  simp only [Option.map_some', Option.some.injEq, Option.some_bind] at hbal hsell hdel hnot
  have hr : Reachable stofDec blank s :=
    reachable_dispatchAll soldOutRun (reachable_firstFrame stofDec) hs
  obtain ⟨-, hprices, -, hstep⟩ := C4_balance_monotone stofDec blank s
    (fun t p hc hp => stofDec_nonneg hc hp) hr
  obtain ⟨s1, hs1⟩ := Option.isSome_iff_exists.mp
    (show (dispatch stofDec s evSell).isSome = true by
      cases hd : dispatch stofDec s evSell with
      | none => rw [hd] at hsell; exact absurd hsell (by simp)
      | some a => rfl)
  obtain ⟨s2, hs2⟩ := Option.isSome_iff_exists.mp hdel
  refine ⟨s, hs, hr, hbal, hprices, ⟨s1, hs1, (hstep evSell s1 hs1).1, ?_⟩,
    ⟨s2, hs2, (hstep evDelete s2 hs2).2 ?_⟩⟩
  · rw [hs1] at hsell
    simpa using hsell
  · rintro ⟨mx, my, he, -, hhit, -⟩
    simp only [evDelete, Event.MOUSEBUTTONDOWN.injEq] at he
    rw [← he.1, ← he.2, hnot] at hhit
    exact absurd hhit (by decide)

/-! ## C5: commit with a price text that does not parse -/

theorem clickEdit_of_hitsSave (stof : List Char → Option Price) {s : App} {mx my : Int}
    (h : hitsSave s mx my = true) : clickEdit stof s mx my = saveClicked stof s := by
  simp only [hitsSave, Bool.and_eq_true, Bool.not_eq_true'] at h
  obtain ⟨⟨⟨h1, h2⟩, h3⟩, h4⟩ := h
  simp [clickEdit, h1, h2, h3, h4]

theorem saveClicked_eq_enterCommit (stof : List Char → Option Price) (s : App) :
    saveClicked stof s = enterCommit stof s := by
  unfold saveClicked enterCommit
  rfl

theorem saveClicked_parse_failure {stof : List Char → Option Price} {s : App} {t : Toy}
    (h0 : 0 ≤ s.storeSelectedIndex) (hget : s.store[s.storeSelectedIndex.toNat]? = some t)
    (hfail : stof s.editPriceStr = none) :
    saveClicked stof s = some { s with
      store := s.store.set s.storeSelectedIndex.toNat
        { name := s.editName, description := s.editDescription, price := t.price,
          quantity := t.quantity },
      state := AppState.STORE } := by
  have hl := sel_lt_of_get? h0 hget
  unfold saveClicked
  rw [if_pos (by simp [h0, hl]), vecAt_of_get? h0 hget]
  simp only [Option.some_bind, hfail]
  rw [vecSet_of_range _ h0 hl]
  rfl

theorem dispatch_enter_last_field (stof : List Char → Option Price) {s : App}
    (hs : s.state = AppState.EDIT) (hf : s.editFocusedField = 2) (sym : Key)
    (hsym : sym = Key.RETURN ∨ sym = Key.KP_ENTER) :
    dispatch stof s (Event.KEYDOWN sym) = enterCommit stof s := by
  have h1 : ¬ (sym = Key.BACKSPACE ∧ nonEmptyField (currentField s) = true) := by
    rintro ⟨hb, -⟩
    rcases hsym with h | h <;> (rw [h] at hb; exact Key.noConfusion hb)
  have h2 : sym ≠ Key.TAB := by
    rintro hb
    rcases hsym with h | h <;> (rw [h] at hb; exact Key.noConfusion hb)
  simp only [dispatch, hs, if_true, keyDown, if_neg h1, if_neg h2, if_pos hsym, hf]
  rfl

/-- C5. In Edit state with a valid selection and a price text on which `stof` throws, a
commit sets the selected item's name and description to the buffers and leaves its price
and quantity, every other item, the balance, the selection and all other variables as they
were, except that the state becomes Store; this holds for the commit by a click that reaches
the Save branch and for the commit by Enter or keypad Enter with the focus on field 2,
whatever the window size is. For every edit buffer (parsing or not, selection valid or not)
Enter and keypad Enter with the focus on field 2 produce the same result, which is the
result of the Save branch, and so does every click that reaches the Save branch. -/
theorem C5_commit_keeps_price_on_parse_failure (stof : List Char → Option Price) (s : App)
    (hs : s.state = AppState.EDIT) :
    (∀ t : Toy, 0 ≤ s.storeSelectedIndex → s.store[s.storeSelectedIndex.toNat]? = some t →
      stof s.editPriceStr = none →
      (∀ mx my : Int, hitsSave s mx my = true →
        dispatch stof s (Event.MOUSEBUTTONDOWN mx my) = some { s with
          store := s.store.set s.storeSelectedIndex.toNat
            { name := s.editName, description := s.editDescription, price := t.price,
              quantity := t.quantity },
          state := AppState.STORE }) ∧
      (s.editFocusedField = 2 →
        dispatch stof s (Event.KEYDOWN Key.RETURN) = some { s with
            store := s.store.set s.storeSelectedIndex.toNat
              { name := s.editName, description := s.editDescription, price := t.price,
                quantity := t.quantity },
            state := AppState.STORE } ∧
          dispatch stof s (Event.KEYDOWN Key.KP_ENTER) = some { s with
            store := s.store.set s.storeSelectedIndex.toNat
              { name := s.editName, description := s.editDescription, price := t.price,
                quantity := t.quantity },
            state := AppState.STORE })) ∧
    (s.editFocusedField = 2 →
      dispatch stof s (Event.KEYDOWN Key.RETURN) = saveClicked stof s ∧
        dispatch stof s (Event.KEYDOWN Key.KP_ENTER) = saveClicked stof s) ∧
    (∀ mx my : Int, hitsSave s mx my = true →
      dispatch stof s (Event.MOUSEBUTTONDOWN mx my) = saveClicked stof s ∧
        (s.editFocusedField = 2 →
          dispatch stof s (Event.KEYDOWN Key.RETURN) =
              dispatch stof s (Event.MOUSEBUTTONDOWN mx my) ∧
            dispatch stof s (Event.KEYDOWN Key.KP_ENTER) =
              dispatch stof s (Event.MOUSEBUTTONDOWN mx my))) := by
  have hclick : ∀ mx my : Int, hitsSave s mx my = true →
      dispatch stof s (Event.MOUSEBUTTONDOWN mx my) = saveClicked stof s := by
    intro mx my hsave
    simp only [dispatch, hs]
    exact clickEdit_of_hitsSave stof hsave
  have henter : s.editFocusedField = 2 → ∀ sym : Key, sym = Key.RETURN ∨ sym = Key.KP_ENTER →
      dispatch stof s (Event.KEYDOWN sym) = saveClicked stof s := by
    intro hf sym hsym
    rw [saveClicked_eq_enterCommit]
    exact dispatch_enter_last_field stof hs hf sym hsym
  refine ⟨fun t h0 hget hfail => ⟨fun mx my hsave => ?_, fun hf => ⟨?_, ?_⟩⟩,
    fun hf => ⟨henter hf _ (Or.inl rfl), henter hf _ (Or.inr rfl)⟩,
    fun mx my hsave => ⟨hclick mx my hsave, fun hf => ⟨?_, ?_⟩⟩⟩
  · exact (hclick mx my hsave).trans (saveClicked_parse_failure h0 hget hfail)
  · exact (henter hf _ (Or.inl rfl)).trans (saveClicked_parse_failure h0 hget hfail)
  · exact (henter hf _ (Or.inr rfl)).trans (saveClicked_parse_failure h0 hget hfail)
  · rw [hclick mx my hsave]
    exact henter hf _ (Or.inl rfl)
  · rw [hclick mx my hsave]
    exact henter hf _ (Or.inr rfl)

/-- C5 on the seeded store with buffers `Robot` / `x` and price text `,`: the decimal
instance of `stof` rejects the empty text, `,` and `.`; the Save click at (300, 540) renames
the first item and keeps its price (the float nearest to 29.99) and quantity 10; Enter gives
the same state, also on a window of 800 x 350, where no click reaches the Save branch. -/
theorem C5_commit_keeps_price_on_parse_failure_witness :
    stofDec [] = none ∧ stofDec [','] = none ∧ stofDec ['.'] = none ∧
    dispatch stofDec (editSample [',']) (Event.MOUSEBUTTONDOWN 300 540) =
      some { editSample [','] with
        store :=
          { name := "Robot".toList, description := "x".toList, price := roundF32 (2999 / 100),
            quantity := 10 } :: seededStore.tail,
        state := AppState.STORE } ∧
    dispatch stofDec (editSample [',']) (Event.KEYDOWN Key.RETURN) =
      dispatch stofDec (editSample [',']) (Event.MOUSEBUTTONDOWN 300 540) ∧
    dispatch stofDec { editSample [','] with winHeight := 350 } (Event.KEYDOWN Key.RETURN) =
      some { editSample [','] with
        winHeight := 350,
        store :=
          { name := "Robot".toList, description := "x".toList, price := roundF32 (2999 / 100),
            quantity := 10 } :: seededStore.tail,
        state := AppState.STORE } := by
  have h := C5_commit_keeps_price_on_parse_failure stofDec (editSample [',']) (by decide)
  have hlow := C5_commit_keeps_price_on_parse_failure stofDec
    { editSample [','] with winHeight := 350 } (by decide)
  have hA := h.1
    { name := "Lego Set".toList, description := "A fun building set for kids.".toList,
      price := roundF32 (2999 / 100), quantity := 10 } (by decide) (by decide!) (by decide!)
  have hB := hlow.1
    { name := "Lego Set".toList, description := "A fun building set for kids.".toList,
      price := roundF32 (2999 / 100), quantity := 10 } (by decide) (by decide!) (by decide!)
  refine ⟨by decide!, by decide!, by decide!, ?_, ((h.2.2 300 540 (by decide)).2 (by decide)).1,
    ?_⟩
  · rw [hA.1 300 540 (by decide)]
    decide!
  · rw [(hB.2 (by decide)).1]
    decide!

/-! ## C6: text input -/

theorem dispatch_textInput (stof : List Char → Option Price) {s : App}
    (hs : s.state = AppState.EDIT) (f : List Char) :
    dispatch stof s (Event.TEXTINPUT f) = textInput s f := by
  simp [dispatch, hs]

/-- C6. In Edit state with the focus on the Price field and `length t + length f < 256`,
`TextInput f` sets the price text to `t` followed by the characters of `f` that are ASCII
digits, `.` or `,`, in their order, and changes nothing else; with the focus on Name or
Description (and the same length condition on that field) the fragment is appended as it
is and nothing else changes. -/
theorem C6_text_input_filter (stof : List Char → Option Price) (s : App) (f : List Char)
    (hs : s.state = AppState.EDIT) :
    (s.editFocusedField = 1 → s.editPriceStr.length + f.length < 256 →
      dispatch stof s (Event.TEXTINPUT f) = some { s with
        editPriceStr := s.editPriceStr ++ f.filter fun c => c.isDigit || c == '.' || c == ',' }) ∧
    (s.editFocusedField = 0 → s.editName.length + f.length < 256 →
      dispatch stof s (Event.TEXTINPUT f) = some { s with editName := s.editName ++ f }) ∧
    (s.editFocusedField = 2 → s.editDescription.length + f.length < 256 →
      dispatch stof s (Event.TEXTINPUT f) =
        some { s with editDescription := s.editDescription ++ f }) := by
  rw [dispatch_textInput stof hs]
  refine ⟨fun hf hlen => ?_, fun hf hlen => ?_, fun hf hlen => ?_⟩
  · simp only [textInput, hf, if_pos hlen, pushPriceChars_eq]
    rfl
  · simp only [textInput, hf, if_pos hlen]
    rfl
  · simp only [textInput, hf, if_pos hlen]
    rfl

/-- C6 on an empty price text: the fragment `12a.b5` leaves `12.5`. -/
theorem C6_text_input_filter_witness :
    dispatch stofDec { editSample [] with editFocusedField := 1 }
        (Event.TEXTINPUT "12a.b5".toList) =
      some { editSample "12.5".toList with editFocusedField := 1 } := by
  have h := (C6_text_input_filter stofDec { editSample [] with editFocusedField := 1 }
    "12a.b5".toList (by decide)).1 (by decide) (by decide)
  rw [h]
  decide!

/-! ## C7: the editor scenario -/

theorem storeEdit_valid {s : App} {t : Toy} (h0 : 0 ≤ s.storeSelectedIndex)
    (hget : s.store[s.storeSelectedIndex.toNat]? = some t) :
    storeEdit s = some { s with
      editName := t.name, editDescription := t.description,
      editPriceStr := trimSpec (to_string t.price), editFocusedField := 0,
      state := AppState.EDIT } := by
  have hl := sel_lt_of_get? h0 hget
  unfold storeEdit
  rw [if_pos (by simp [h0, hl]), vecAt_of_get? h0 hget]
  simp only [Option.some_bind, trimPriceStr_to_string]

/-- C7, amended. From Store state with a valid selected item `t`, a click that reaches the
Edit branch followed by the text `Robot`, Tab, the text `abc`, Enter and Enter ends in Store
state with the same selection; the text `abc` leaves the whole state, the price text
included, as it is. The item's name is its previous name followed by `Robot` (its previous
name when that would reach 256 characters), its description and quantity are unchanged, and
its price is what `stof` returns on the seeded price text, the trimmed six-decimal rendering
of the previous price (the previous price when `stof` throws). -/
theorem C7_edit_scenario (stof : List Char → Option Price) (s : App) (t : Toy) (mx my : Int)
    (hs : s.state = AppState.STORE) (h0 : 0 ≤ s.storeSelectedIndex)
    (hget : s.store[s.storeSelectedIndex.toNat]? = some t) (hedit : hitsEdit s mx my = true) :
    (∃ s3, dispatchAll stof s ((robotScenario mx my).take 3) = some s3 ∧
      s3.editPriceStr = trimSpec (to_string t.price) ∧
      dispatch stof s3 (Event.TEXTINPUT "abc".toList) = some s3) ∧
    dispatchAll stof s (robotScenario mx my) = some { s with
      state := AppState.STORE,
      editName := if t.name.length + 5 < 256 then t.name ++ "Robot".toList else t.name,
      editDescription := t.description,
      editPriceStr := trimSpec (to_string t.price),
      editFocusedField := 2,
      store := s.store.set s.storeSelectedIndex.toNat
        { name := if t.name.length + 5 < 256 then t.name ++ "Robot".toList else t.name,
          description := t.description,
          price := (stof (trimSpec (to_string t.price))).getD t.price,
          quantity := t.quantity } } := by
  have h1 := (dispatch_click_store stof hs mx my).trans
    ((clickStore_of_hitsEdit hedit).trans (storeEdit_valid h0 hget))
  have hl := sel_lt_of_get? h0 hget
  have hg : (decide (s.storeSelectedIndex ≥ 0) &&
      decide (s.storeSelectedIndex < (s.store.length : Int))) = true := by
    simp [h0, hl]
  have hv := vecAt_of_get? h0 hget
  have hfilter : (List.filter priceChar ['a', 'b', 'c']) = [] := by decide
  by_cases hlen : t.name.length + 5 < 256
  · constructor
    · simp only [robotScenario, List.take, dispatchAll, h1, Option.some_bind]
      simp [dispatch, textInput, keyDown, hlen, Int.tmod, pushPriceChars_eq, hfilter]
    · simp only [robotScenario, dispatchAll, h1, Option.some_bind]
      simp [dispatch, textInput, keyDown, hlen, Int.tmod, pushPriceChars_eq, hfilter,
        enterCommit, hg, hv, vecSet_of_range, h0, hl, currentField, nonEmptyField]
      cases stof (trimSpec (to_string t.price)) <;> rfl
  · constructor
    · simp only [robotScenario, List.take, dispatchAll, h1, Option.some_bind]
      simp [dispatch, textInput, keyDown, hlen, Int.tmod, pushPriceChars_eq, hfilter]
    · simp only [robotScenario, dispatchAll, h1, Option.some_bind]
      simp [dispatch, textInput, keyDown, hlen, Int.tmod, pushPriceChars_eq, hfilter,
        enterCommit, hg, hv, vecSet_of_range, h0, hl, currentField, nonEmptyField]
      cases stof (trimSpec (to_string t.price)) <;> rfl

/-- C7 as stated fails. On the 800 x 600 layout, for a single selected item named
`Lego Set` whose price is the float nearest to 0.0000001, the scenario (Edit click at (600, 550), `Robot`, Tab, `abc`,
Enter, Enter) ends in Store state with the name `Lego SetRobot`, not `Robot`, and with price
0, not the price before editing: the seeded price text is `0`. From the first frame, Play
and the same scenario rename the first seeded item to `Lego SetRobot`. -/
theorem C7_edit_scenario_counterexample :
    (dispatchAll stofDec (storeWith tinyPriceStore 0) (robotScenario 600 550)).map
        (fun s => (s.state, s.store.map Toy.name, s.store.map Toy.price, s.editPriceStr)) =
      some (AppState.STORE, ["Lego SetRobot".toList], [0], ['0']) ∧
    hitsEdit (storeWith tinyPriceStore 0) 600 550 = true ∧
    tinyPriceStore.map Toy.price = [14073749 / 140737488355328] ∧
    (dispatchAll stofDec firstFrame (evPlay :: robotScenario 600 550)).map
        (fun s => (s.state, s.store.map Toy.name, s.store.map Toy.price)) =
      some (AppState.STORE,
        ["Lego SetRobot".toList, "Doll".toList, "Toy Car".toList],
        seededStore.map Toy.price) := by
  refine ⟨?_, ?_, ?_, ?_⟩ <;> decide!

/-- C7 amended, on the seeded store with the third item selected: the scenario ends in Store
state, the item is named `Toy CarRobot` and keeps its price, the float nearest to 9.99 (the
seeded text `9.99` parses back to it). -/
theorem C7_edit_scenario_witness :
    dispatchAll stofDec (storeWith seededStore 2) (robotScenario 600 550) =
      some { storeWith seededStore 2 with
        editName := "Toy CarRobot".toList,
        editDescription := "A speedy little car for racing.".toList,
        editPriceStr := "9.99".toList, editFocusedField := 2,
        store := seededStore.take 2 ++
          [{ name := "Toy CarRobot".toList,
             description := "A speedy little car for racing.".toList,
             price := roundF32 (999 / 100), quantity := 15 }] } := by
  rw [(C7_edit_scenario stofDec (storeWith seededStore 2)
    { name := "Toy Car".toList, description := "A speedy little car for racing.".toList,
      price := roundF32 (999 / 100), quantity := 15 } 600 550 (by decide) (by decide) (by decide!)
    (by decide)).2]
  decide!

/-! ## C8: trimming of the seeded price text -/

theorem rdropWhile_append_cons (p : Char → Bool) (l m : List Char) {x : Char}
    (hx : p x = false) : (l ++ x :: m).rdropWhile p = l ++ x :: m.rdropWhile p := by
  simp only [List.rdropWhile, List.reverse_append, List.reverse_cons, List.append_assoc,
    List.singleton_append, List.dropWhile_append]
  by_cases hm : (List.dropWhile p m.reverse).isEmpty = true
  · have hnil : List.dropWhile p m.reverse = [] := List.isEmpty_iff.mp hm
    simp [hm, hnil, List.dropWhile_cons, hx]
  · simp [hm]

theorem isDigit_ne_dot {c : Char} (h : c.isDigit = true) : c ≠ '.' := by
  rintro rfl
  exact absurd h (by decide)

theorem getLast?_isDigit {l : List Char} {c : Char} (hl : ∀ x ∈ l, x.isDigit = true)
    (h : l.getLast? = some c) : c.isDigit = true :=
  hl c (List.mem_of_mem_getLast? h)

theorem rdropWhile_zero_isDigit {fp : List Char} (h : ∀ c ∈ fp, c.isDigit = true) :
    ∀ c ∈ fp.rdropWhile (fun c => c == '0'), c.isDigit = true :=
  fun c hc => h c ((List.rdropWhile_prefix _ _).subset hc)

/-- The specification's trimming on a text `<ip>.<fp>` with digits after the point. -/
theorem trimSpec_decimal (ip fp : List Char) (hfpd : ∀ c ∈ fp, c.isDigit = true) :
    trimSpec (ip ++ '.' :: fp) =
      if fp.rdropWhile (fun c => c == '0') = [] then ip
      else ip ++ '.' :: fp.rdropWhile (fun c => c == '0') := by
  unfold trimSpec
  rw [rdropWhile_append_cons _ ip fp (by decide)]
  dsimp only
  by_cases hnil : fp.rdropWhile (fun c => c == '0') = []
  · rw [hnil, if_pos rfl, List.getLast?_concat, if_pos rfl, List.dropLast_concat]
  · rw [if_neg hnil]
    obtain ⟨c, hc⟩ := Option.isSome_iff_exists.mp (List.getLast?_isSome.mpr hnil)
    have hlast : (ip ++ '.' :: fp.rdropWhile (fun c => c == '0')).getLast? = some c := by
      rw [List.getLast?_append_cons, ← hc]
      exact List.getLast?_append_of_ne_nil ['.'] hnil
    rw [hlast, if_neg]
    intro heq
    have hcd := getLast?_isDigit (rdropWhile_zero_isDigit hfpd) hc
    exact isDigit_ne_dot hcd (Option.some.inj heq)

theorem digitsVal_concat (l : List Char) (c : Char) :
    digitsVal (l ++ [c]) = 10 * digitsVal l + (c.toNat - 48) := by
  simp [digitsVal, List.foldl_append]

theorem fraction_rdropWhile_zero (l : List Char) :
    (digitsVal (l.rdropWhile (fun c => c == '0')) : ℚ) /
        (10 : ℚ) ^ (l.rdropWhile (fun c => c == '0')).length =
      (digitsVal l : ℚ) / (10 : ℚ) ^ l.length := by
  induction l using List.reverseRecOn with
  | nil => simp
  | append_singleton l c ih =>
    by_cases hc : c = '0'
    · subst hc
      rw [List.rdropWhile_concat_pos _ _ _ (by decide), ih, digitsVal_concat]
      have h48 : ('0'.toNat - 48 : Nat) = 0 := by decide
      rw [h48, List.length_append, List.length_singleton, pow_succ]
      push_cast
      field_simp
      ring
    · rw [List.rdropWhile_concat_neg _ _ _ (by simpa using hc)]

theorem decValue_decimal (ip x : List Char) (hipd : ∀ c ∈ ip, c.isDigit = true) :
    decValue (ip ++ '.' :: x) = (digitsVal ip : ℚ) + (digitsVal x : ℚ) / (10 : ℚ) ^ x.length := by
  have hpos : ∀ a ∈ ip, (fun c => c != '.') a = true := by
    intro a ha
    simpa using isDigit_ne_dot (hipd a ha)
  unfold decValue
  rw [List.takeWhile_append_of_pos hpos, List.dropWhile_append_of_pos hpos]
  simp [List.takeWhile_cons, List.dropWhile_cons]

theorem decValue_digits (ip : List Char) (hipd : ∀ c ∈ ip, c.isDigit = true) :
    decValue ip = (digitsVal ip : ℚ) := by
  have hpos : ∀ a ∈ ip, (fun c => c != '.') a = true := by
    intro a ha
    simpa using isDigit_ne_dot (hipd a ha)
  unfold decValue
  rw [List.takeWhile_eq_self_iff.mpr hpos, List.dropWhile_eq_nil_iff.mpr hpos]
  simp [digitsVal]

/-- The rendering of a non-negative price has the form `<digits>.<six digits>`. -/
theorem to_string_form {p : Price} (hp : 0 ≤ p) :
    ∃ ip fp, to_string p = ip ++ '.' :: fp ∧ ip ≠ [] ∧ (∀ c ∈ ip, c.isDigit = true) ∧
      fp.length = 6 ∧ ∀ c ∈ fp, c.isDigit = true := by
  refine ⟨Nat.toDigits 10 (scaledMicro p / 1000000), fracDigits (scaledMicro p % 1000000),
    ?_, ?_, toDigits_isDigit _, rfl, fracDigits_isDigit _⟩
  · unfold to_string
    rw [if_neg (not_lt.mpr hp), List.nil_append]
  · intro hnil
    have hlen : (Nat.toDigits 10 (scaledMicro p / 1000000)).length = 0 := by
      rw [hnil]
      rfl
    unfold Nat.toDigits at hlen
    simp only [Nat.toDigitsCore] at hlen
    split_ifs at hlen
    · simp at hlen
    · rw [Nat.toDigitsCore_lens_eq] at hlen
      omega

/-- C8. For a text `d = <ip>.<fp>` with `ip` one or more digits and `fp` digits only (six
of them in the rendering of a non-negative price by `to_string`; the count plays no part),
the code's trimming is defined and
returns `d` with all trailing `'0'` removed and then a trailing `'.'` removed; the result
is not empty, does not end in `'.'`, does not end in `'0'` when it holds a `'.'`, starts
with all of `ip`, and denotes the same decimal value as `d`. -/
theorem C8_seeded_price_text_trim (ip fp : List Char) (hip : ip ≠ [])
    (hipd : ∀ c ∈ ip, c.isDigit = true) (hfpd : ∀ c ∈ fp, c.isDigit = true) :
    ∃ r, trimPriceStr (ip ++ '.' :: fp) = some r ∧ r = trimSpec (ip ++ '.' :: fp) ∧
      r ≠ [] ∧ r.getLast? ≠ some '.' ∧ ('.' ∈ r → r.getLast? ≠ some '0') ∧ ip <+: r ∧
      decValue r = decValue (ip ++ '.' :: fp) := by
  have hsome : trimPriceStr (ip ++ '.' :: fp) = some (trimSpec (ip ++ '.' :: fp)) :=
    trimPriceStr_eq_trimSpec ⟨'.', by simp, by decide⟩
  refine ⟨_, hsome, rfl, ?_⟩
  rw [trimSpec_decimal ip fp hfpd, decValue_decimal ip fp hipd]
  by_cases hnil : fp.rdropWhile (fun c => c == '0') = []
  · rw [if_pos hnil]
    refine ⟨hip, ?_, ?_, List.prefix_refl ip, ?_⟩
    · intro hlast
      exact isDigit_ne_dot (getLast?_isDigit hipd hlast) rfl
    · intro hmem
      exact absurd rfl (isDigit_ne_dot (hipd _ hmem))
    · rw [decValue_digits ip hipd, ← fraction_rdropWhile_zero fp, hnil]
      simp [digitsVal]
  · rw [if_neg hnil]
    obtain ⟨c, hc⟩ := Option.isSome_iff_exists.mp (List.getLast?_isSome.mpr hnil)
    have hlast : (ip ++ '.' :: fp.rdropWhile (fun c => c == '0')).getLast? = some c := by
      rw [List.getLast?_append_cons, ← hc]
      exact List.getLast?_append_of_ne_nil ['.'] hnil
    have hcd := getLast?_isDigit (rdropWhile_zero_isDigit hfpd) hc
    have hc0 : c ≠ '0' := by
      have hnot := List.rdropWhile_last_not (fun c => c == '0') fp hnil
      rw [List.getLast?_eq_getLast _ hnil, Option.some.injEq] at hc
      rw [hc] at hnot
      simpa using hnot
    refine ⟨by simp, ?_, ?_, List.prefix_append ip _, ?_⟩
    · rw [hlast]
      intro heq
      exact isDigit_ne_dot hcd (Option.some.inj heq)
    · intro _
      rw [hlast]
      intro heq
      exact hc0 (Option.some.inj heq)
    · rw [decValue_decimal ip _ hipd, fraction_rdropWhile_zero]

/-- C8 on the three renderings named in the claim: `14.990000` gives `14.99`, `10.000000`
gives `10` and `0.000000` gives `0`; `to_string` renders 14.99 as `14.990000`. -/
theorem C8_seeded_price_text_trim_witness :
    trimPriceStr "14.990000".toList = some "14.99".toList ∧
    trimPriceStr "10.000000".toList = some "10".toList ∧
    trimPriceStr "0.000000".toList = some "0".toList ∧
    to_string (1499 / 100) = "14.990000".toList ∧
    decValue "14.99".toList = decValue "14.990000".toList := by
  obtain ⟨r, hr, -, -, -, -, -, hv⟩ := C8_seeded_price_text_trim "14".toList "990000".toList
    (by decide) (by decide) (by decide)
  have h1 : trimPriceStr "14.990000".toList = some "14.99".toList := by decide
  have hr1 : r = "14.99".toList := by
    have h2 : trimPriceStr ("14".toList ++ '.' :: "990000".toList) = some "14.99".toList := h1
    rw [h2] at hr
    exact (Option.some.inj hr).symm
  rw [hr1] at hv
  exact ⟨h1, by decide, by decide, by decide!, hv⟩

/-! ## C9: the 256 cap on the edit texts -/

theorem scaledMicro_le (p : Price) : (scaledMicro p : ℚ) ≤ |p| * 1000000 + 1 := by
  have hx : (0 : ℚ) ≤ |p| * 1000000 := by positivity
  have hfl : (0 : ℤ) ≤ ⌊|p| * 1000000⌋ := Int.floor_nonneg.mpr hx
  have hq : ((Int.toNat ⌊|p| * 1000000⌋ : ℕ) : ℚ) ≤ |p| * 1000000 := by
    have h1 : ((Int.toNat ⌊|p| * 1000000⌋ : ℕ) : ℤ) = ⌊|p| * 1000000⌋ := Int.toNat_of_nonneg hfl
    have h2 : ((Int.toNat ⌊|p| * 1000000⌋ : ℕ) : ℚ) = ((⌊|p| * 1000000⌋ : ℤ) : ℚ) := by
      rw [← Int.cast_natCast, h1]
    rw [h2]
    exact Int.floor_le _
  unfold scaledMicro
  dsimp only
  split_ifs
  · push_cast
    linarith
  · linarith

theorem to_string_length_le {p : Price} (hp : |p| < 2 ^ 128) : (to_string p).length ≤ 47 := by
  have hs := scaledMicro_le p
  have hlt : scaledMicro p / 1000000 < 10 ^ 39 := by
    have h1 : (scaledMicro p : ℚ) < 10 ^ 39 * 1000000 := by
      have : |p| * 1000000 + 1 < (10 : ℚ) ^ 39 * 1000000 := by
        have h2 : |p| * 1000000 < 2 ^ 128 * 1000000 := by
          exact mul_lt_mul_of_pos_right hp (by norm_num)
        have h3 : (2 : ℚ) ^ 128 * 1000000 + 1 < 10 ^ 39 * 1000000 := by norm_num
        linarith
      linarith
    have h4 : scaledMicro p < 10 ^ 39 * 1000000 := by exact_mod_cast h1
    exact Nat.div_lt_of_lt_mul (by rw [Nat.mul_comm]; exact h4)
  have hd : (Nat.toDigits 10 (scaledMicro p / 1000000)).length ≤ 39 :=
    Nat.toDigitsCore_length 10 (by decide) _ _ 39 hlt (by decide)
  unfold to_string
  simp only [List.length_append, List.length_cons, fracDigits, List.length_nil]
  split_ifs
  · simp only [List.length_cons, List.length_nil]
    omega
  · simp only [List.length_nil]
    omega

theorem trimSpec_length_le (d : List Char) : (trimSpec d).length ≤ d.length := by
  have hpre : (d.rdropWhile (fun c => c == '0')).length ≤ d.length :=
    (List.rdropWhile_prefix _ _).length_le
  unfold trimSpec
  dsimp only
  split_ifs
  · rw [List.length_dropLast]
    omega
  · exact hpre

theorem abs_roundF32_lt {x : ℚ} (h0 : 0 ≤ x) (hx : x < 2 ^ 128 - 2 ^ 103) :
    |roundF32 x| < 2 ^ 128 := by
  rw [abs_of_nonneg (roundF32_nonneg h0)]
  exact roundF32_lt_overflow h0 hx

theorem textsOk_initial (uninit : App) : textsOk (initial uninit) := by
  refine ⟨⟨by simp [initial], by simp [initial], by simp [initial]⟩, ?_⟩
  intro t ht
  simp only [initial, seededStore, List.mem_cons, List.mem_singleton, List.not_mem_nil,
    or_false] at ht
  rcases ht with h | h | h <;>
    (rw [h]; exact ⟨by decide, by decide, abs_roundF32_lt (by norm_num) (by norm_num)⟩)

theorem textsOk_storeAdd {s s1 : App} (hok : textsOk s) (h : storeAdd s = some s1) :
    textsOk s1 := by
  unfold storeAdd at h
  cases h
  refine ⟨hok.1, ?_⟩
  intro t ht
  rcases List.mem_append.mp ht with h1 | h1
  · exact hok.2 t h1
  · rw [List.mem_singleton.mp h1]
    exact ⟨by decide, by decide, abs_roundF32_lt (by norm_num) (by norm_num)⟩

theorem textsOk_storeDelete {s s1 : App} (hok : textsOk s) (h : storeDelete s = some s1) :
    textsOk s1 := by
  unfold storeDelete at h
  split_ifs at h with hg hpos
  · obtain ⟨store1, he, h⟩ := Option.bind_eq_some.mp h
    obtain ⟨-, -, rfl⟩ := vecErase_eq_some he
    cases h
    exact ⟨hok.1, fun t ht => hok.2 t (List.mem_of_mem_eraseIdx ht)⟩
  · obtain ⟨store1, he, h⟩ := Option.bind_eq_some.mp h
    obtain ⟨-, -, rfl⟩ := vecErase_eq_some he
    cases h
    exact ⟨hok.1, fun t ht => hok.2 t (List.mem_of_mem_eraseIdx ht)⟩
  · cases h
    exact hok

theorem textsOk_storeSell {s s1 : App} (hok : textsOk s) (h : storeSell s = some s1) :
    textsOk s1 := by
  unfold storeSell at h
  split_ifs at h with hg
  · obtain ⟨t, ht, h⟩ := Option.bind_eq_some.mp h
    have htmem : t ∈ s.store := List.getElem?_mem (vecAt_eq_some ht).2.2
    split_ifs at h with hq hq1
    · obtain ⟨store1, he, h⟩ := Option.bind_eq_some.mp h
      obtain ⟨-, -, rfl⟩ := vecErase_eq_some he
      split_ifs at h with hge
      · cases h
        exact ⟨hok.1, fun u hu => hok.2 u (List.mem_of_mem_eraseIdx hu)⟩
      · cases h
        exact ⟨hok.1, fun u hu => hok.2 u (List.mem_of_mem_eraseIdx hu)⟩
    · obtain ⟨store1, he, h⟩ := Option.bind_eq_some.mp h
      obtain ⟨-, -, rfl⟩ := vecSet_eq_some he
      cases h
      refine ⟨hok.1, ?_⟩
      intro u hu
      rcases List.mem_or_eq_of_mem_set hu with h1 | h1
      · exact hok.2 u h1
      · rw [h1]
        exact hok.2 t htmem
    · cases h
      exact hok
  · cases h
    exact hok

theorem textsOk_storeEdit {s s1 : App} (hok : textsOk s) (h : storeEdit s = some s1) :
    textsOk s1 := by
  unfold storeEdit at h
  split_ifs at h with hg
  · obtain ⟨t, ht, h⟩ := Option.bind_eq_some.mp h
    have htok := hok.2 t (List.getElem?_mem (vecAt_eq_some ht).2.2)
    rw [trimPriceStr_to_string] at h
    simp only [Option.some_bind, Option.some.injEq] at h
    rw [← h]
    refine ⟨⟨htok.1, ?_, htok.2.1⟩, hok.2⟩
    have h1 := trimSpec_length_le (to_string t.price)
    have h2 := to_string_length_le htok.2.2
    simp only
    omega
  · cases h
    exact hok

theorem textsOk_saveClicked {stof : List Char → Option Price}
    (hstof : ∀ t p, stof t = some p → |p| < 2 ^ 128)
    {s s1 : App} (hok : textsOk s) (h : saveClicked stof s = some s1) : textsOk s1 := by
  unfold saveClicked at h
  split_ifs at h with hg
  · obtain ⟨t, ht, h⟩ := Option.bind_eq_some.mp h
    have htok := hok.2 t (List.getElem?_mem (vecAt_eq_some ht).2.2)
    obtain ⟨store1, he, h⟩ := Option.bind_eq_some.mp h
    obtain ⟨-, -, rfl⟩ := vecSet_eq_some he
    cases h
    refine ⟨hok.1, ?_⟩
    intro u hu
    rcases List.mem_or_eq_of_mem_set hu with h1 | h1
    · exact hok.2 u h1
    · rw [h1]
      cases hp : stof s.editPriceStr with
      | none => exact ⟨hok.1.1, hok.1.2.2, htok.2.2⟩
      | some v => exact ⟨hok.1.1, hok.1.2.2, hstof _ v hp⟩
  · cases h
    exact hok

theorem textsOk_enterCommit {stof : List Char → Option Price}
    (hstof : ∀ t p, stof t = some p → |p| < 2 ^ 128)
    {s s1 : App} (hok : textsOk s) (h : enterCommit stof s = some s1) : textsOk s1 := by
  rw [← saveClicked_eq_enterCommit] at h
  exact textsOk_saveClicked hstof hok h

theorem textsOk_textInput {s s1 : App} {text : List Char} (hok : textsOk s)
    (h : textInput s text = some s1) : textsOk s1 := by
  unfold textInput at h
  split_ifs at h with h0 hl0 h1 hl1 h2 hl2
  all_goals cases h
  · refine ⟨⟨?_, hok.1.2.1, hok.1.2.2⟩, hok.2⟩
    simp only [List.length_append]
    exact hl0
  · exact hok
  · refine ⟨⟨hok.1.1, ?_, hok.1.2.2⟩, hok.2⟩
    have := List.length_filter_le priceChar text
    simp only [pushPriceChars_eq, List.length_append]
    omega
  · exact hok
  · refine ⟨⟨hok.1.1, hok.1.2.1, ?_⟩, hok.2⟩
    simp only [List.length_append]
    exact hl2
  · exact hok
  · exact hok

theorem textsOk_setCurrentField {s : App} {f : List Char} (hok : textsOk s)
    (hf : currentField s = some f) : textsOk (setCurrentField s f.dropLast) := by
  unfold currentField at hf
  unfold setCurrentField
  split_ifs at hf ⊢
  all_goals simp only [Option.some.injEq] at hf
  · refine ⟨⟨?_, hok.1.2.1, hok.1.2.2⟩, hok.2⟩
    have := hok.1.1
    simp only [List.length_dropLast, ← hf]
    omega
  · refine ⟨⟨hok.1.1, ?_, hok.1.2.2⟩, hok.2⟩
    have := hok.1.2.1
    simp only [List.length_dropLast, ← hf]
    omega
  · refine ⟨⟨hok.1.1, hok.1.2.1, ?_⟩, hok.2⟩
    have := hok.1.2.2
    simp only [List.length_dropLast, ← hf]
    omega

theorem textsOk_dispatch {stof : List Char → Option Price}
    (hstof : ∀ t p, stof t = some p → |p| < 2 ^ 128)
    {s s1 : App} {e : Event} (hok : textsOk s) (h : dispatch stof s e = some s1) :
    textsOk s1 := by
  cases e with
  | QUIT => cases h; exact hok
  | WINDOWEVENT_RESIZED a b => cases h; exact hok
  | OTHER => cases h; exact hok
  | MOUSEBUTTONDOWN mx my =>
    simp only [dispatch] at h
    split_ifs at h
    · unfold clickMenu at h
      split_ifs at h <;> (cases h; exact hok)
    · unfold clickStore at h
      split_ifs at h
      · unfold storeUp at h
        split_ifs at h <;> (cases h; exact hok)
      · unfold storeDown at h
        split_ifs at h <;> (cases h; exact hok)
      · exact textsOk_storeAdd hok h
      · exact textsOk_storeDelete hok h
      · exact textsOk_storeSell hok h
      · exact textsOk_storeEdit hok h
      · cases h; exact hok
      · unfold storeRow at h
        split at h <;> (cases h; exact hok)
    · unfold clickEdit at h
      split_ifs at h
      · cases h; exact hok
      · cases h; exact hok
      · cases h; exact hok
      · exact textsOk_saveClicked hstof hok h
      · cases h; exact hok
      · cases h; exact hok
    · cases h; exact hok
  | TEXTINPUT text =>
    simp only [dispatch] at h
    split_ifs at h
    · exact textsOk_textInput hok h
    · cases h; exact hok
  | KEYDOWN sym =>
    simp only [dispatch] at h
    split_ifs at h
    · unfold keyDown at h
      split_ifs at h
      · split at h
        · rename_i f hf
          cases h
          exact textsOk_setCurrentField hok hf
        · cases h; exact hok
      · cases h; exact hok
      · cases h; exact hok
      · exact textsOk_enterCommit hstof hok h
      · cases h; exact hok
      · cases h; exact hok
    · cases h; exact hok

theorem textsOk_of_reachable {stof : List Char → Option Price}
    (hstof : ∀ t p, stof t = some p → |p| < 2 ^ 128)
    {uninit s : App} (h : Reachable stof uninit s) : textsOk s := by
  induction h with
  | init => exact textsOk_initial uninit
  | event e _ hstep ih => exact textsOk_dispatch hstof ih hstep
  | frameEnd _ ih => exact ih

theorem textInput_over_cap {a : App} {f field : List Char} (hcur : currentField a = some field)
    (hcap : 256 ≤ field.length + f.length) : textInput a f = some a := by
  unfold currentField at hcur
  unfold textInput
  split_ifs at hcur ⊢
  all_goals first
    | rfl
    | (simp only [Option.some.injEq] at hcur
       subst hcur
       omega)

/-- C9. Let every value returned by `stof` lie within the range of `float` (beyond it
`stof` throws). Then in every reachable state each of the three edit texts is shorter than
256. In any Edit state, reachable or not, a `TextInput` whose fragment would make the
focused text reach or exceed 256 characters is dropped as a whole: the state, that text
included, is returned as it is. -/
theorem C9_edit_text_cap (stof : List Char → Option Price) (uninit s : App)
    (hstof : ∀ t p, stof t = some p → |p| < 2 ^ 128)
    (hreach : Reachable stof uninit s) :
    (s.editName.length < 256 ∧ s.editPriceStr.length < 256 ∧
        s.editDescription.length < 256) ∧
      ∀ (a : App) (f field : List Char), a.state = AppState.EDIT →
        currentField a = some field → 256 ≤ field.length + f.length →
        dispatch stof a (Event.TEXTINPUT f) = some a :=
  ⟨(textsOk_of_reachable hstof hreach).1, fun _ f _ ha hcur hcap =>
    (dispatch_textInput stof ha f).trans (textInput_over_cap hcur hcap)⟩

/-- C9 with the decimal instance of `stof`, after Play, Edit and 200 characters typed into
the Name field (208 characters with the seeded name): a further fragment of 100 characters
is dropped as a whole. -/
theorem C9_edit_text_cap_witness :
    ∃ s, dispatchAll stofDec firstFrame longNameRun = some s ∧ Reachable stofDec blank s ∧
      s.editName.length = 208 ∧ s.editPriceStr.length < 256 ∧
      s.editDescription.length < 256 ∧
      dispatch stofDec s (Event.TEXTINPUT (List.replicate 100 'y')) = some s := by
  have hsome : (dispatchAll stofDec firstFrame longNameRun).isSome = true := by decide!
  obtain ⟨s, hs⟩ := Option.isSome_iff_exists.mp hsome
  have hfacts : (dispatchAll stofDec firstFrame longNameRun).map
      (fun a => (a.state, a.editFocusedField, a.editName.length)) =
      some (AppState.EDIT, 0, 208) := by decide!
  rw [hs] at hfacts
  simp only [Option.map_some', Option.some.injEq, Prod.mk.injEq] at hfacts
  obtain ⟨hstate, hfocus, hlen⟩ := hfacts
  have hr : Reachable stofDec blank s :=
    reachable_dispatchAll longNameRun (reachable_firstFrame stofDec) hs
  obtain ⟨hshort, hdrop⟩ := C9_edit_text_cap stofDec blank s
    (fun t p hp => stofDec_range hp) hr
  refine ⟨s, hs, hr, hlen, hshort.2.1, hshort.2.2, ?_⟩
  refine hdrop s (List.replicate 100 'y') s.editName hstate ?_ ?_
  · simp [currentField, hfocus]
  · rw [hlen]
    decide

/-! ## C10: Delete, Sell and Edit on an empty item sequence -/

/-- C10. In Store state with an empty item sequence, whatever the selection, the window size
and the button rectangles are, a click that reaches the Delete, the Sell or the Edit branch
returns the state unchanged: item sequence, selection, balance, edit buffers and the
application state (Store) stay as they were. -/
theorem C10_empty_store_noop (stof : List Char → Option Price) (s : App) (mx my : Int)
    (hs : s.state = AppState.STORE) (hempty : s.store = [])
    (hhit : hitsDelete s mx my = true ∨ hitsSell s mx my = true ∨ hitsEdit s mx my = true) :
    dispatch stof s (Event.MOUSEBUTTONDOWN mx my) = some s := by
  rw [dispatch_click_store stof hs]
  rcases hhit with h | h | h
  · rw [clickStore_of_hitsDelete h]
    simp [storeDelete, hempty]
  · rw [clickStore_of_hitsSell h]
    simp [storeSell, hempty]
  · rw [clickStore_of_hitsEdit h]
    unfold storeEdit
    rw [if_neg]
    simp only [hempty, List.length_nil, Nat.cast_zero, Bool.and_eq_true, decide_eq_true_eq]
    omega

/-- C10 on the 800 x 600 layout with an empty store and the selection left at -1 by a
sell-out: the click at (600, 550) reaches the Edit branch and changes nothing. -/
theorem C10_empty_store_noop_witness :
    hitsEdit (storeWith [] (-1)) 600 550 = true ∧
      dispatch stofDec (storeWith [] (-1)) (Event.MOUSEBUTTONDOWN 600 550) =
        some (storeWith [] (-1)) :=
  ⟨by decide, C10_empty_store_noop stofDec (storeWith [] (-1)) 600 550 (by decide) (by decide)
    (Or.inr (Or.inr (by decide)))⟩

/-! ## C11: selection by a click on a row -/

theorem rowHit_eq_find (w h mx my : Int) (n : Nat) :
    rowHit w h mx my n =
      (List.range n).find? fun i => IsPointInRect mx my (itemRect w h i) := rfl

theorem boxHeight_le (L : Int) : Int.tdiv (L * 2) 3 ≤ 0 ∨ (0 < L ∧ Int.tdiv (L * 2) 3 ≤ L) := by
  by_cases hL : 1 ≤ L
  · right
    refine ⟨by omega, ?_⟩
    rw [Int.tdiv_eq_ediv (by omega) (by omega)]
    omega
  · left
    have h1 : Int.tdiv (L * 2) 3 = - Int.tdiv (-(L * 2)) 3 := by
      rw [Int.neg_tdiv, neg_neg]
    rw [h1, Int.tdiv_eq_ediv (by omega) (by omega)]
    omega

/-- Two rows never hold the same point, whatever the window size is. -/
theorem itemRect_disjoint {w h mx my : Int} {i j : Nat}
    (hi : IsPointInRect mx my (itemRect w h i) = true)
    (hj : IsPointInRect mx my (itemRect w h j) = true) : i = j := by
  simp only [IsPointInRect, itemRect, Bool.and_eq_true, decide_eq_true_eq] at hi hj
  obtain ⟨⟨⟨-, -⟩, hi1⟩, hi2⟩ := hi
  obtain ⟨⟨⟨-, -⟩, hj1⟩, hj2⟩ := hj
  rcases boxHeight_le (Int.tdiv h 12) with hB | ⟨hL, hB⟩
  · omega
  · rcases Nat.lt_trichotomy i j with hlt | heq | hgt
    · have hstep : ((i : Int) + 1) * Int.tdiv h 12 ≤ (j : Int) * Int.tdiv h 12 :=
        mul_le_mul_of_nonneg_right (by exact_mod_cast hlt) (le_of_lt hL)
      have hexp : ((i : Int) + 1) * Int.tdiv h 12 = (i : Int) * Int.tdiv h 12 + Int.tdiv h 12 := by
        ring
      linarith
    · exact heq
    · have hstep : ((j : Int) + 1) * Int.tdiv h 12 ≤ (i : Int) * Int.tdiv h 12 :=
        mul_le_mul_of_nonneg_right (by exact_mod_cast hgt) (le_of_lt hL)
      have hexp : ((j : Int) + 1) * Int.tdiv h 12 = (j : Int) * Int.tdiv h 12 + Int.tdiv h 12 := by
        ring
      linarith

theorem rowHit_of_mem {w h mx my : Int} {n i : Nat} (hi : i < n)
    (hin : IsPointInRect mx my (itemRect w h i) = true) : rowHit w h mx my n = some i := by
  rw [rowHit_eq_find]
  cases hf : (List.range n).find? (fun k => IsPointInRect mx my (itemRect w h k)) with
  | none =>
    have hall := List.find?_eq_none.mp hf i (List.mem_range.mpr hi)
    exact absurd hin hall
  | some k =>
    have hk : IsPointInRect mx my (itemRect w h k) = true := by
      simpa using List.find?_some hf
    rw [itemRect_disjoint hk hin]

theorem rowHit_none_of_no_row {w h mx my : Int} {n : Nat}
    (hno : ∀ i, i < n → IsPointInRect mx my (itemRect w h i) = false) :
    rowHit w h mx my n = none := by
  rw [rowHit_eq_find]
  apply List.find?_eq_none.mpr
  intro k hk
  rw [hno k (List.mem_range.mp hk)]
  exact Bool.false_ne_true

theorem clickStore_of_hitsNoButton {s : App} {mx my : Int} (h : hitsNoButton s mx my = true) :
    clickStore s mx my = storeRow s mx my := by
  simp only [hitsNoButton, Bool.and_eq_true, Bool.not_eq_true'] at h
  obtain ⟨⟨⟨⟨⟨⟨h1, h2⟩, h3⟩, h4⟩, h5⟩, h6⟩, h7⟩ := h
  simp [clickStore, h1, h2, h3, h4, h5, h6, h7]

/-- C11. In Store state, for every window size, every item sequence and every click point
that lies in none of the seven stored button rectangles: if the point lies in the rectangle
of row `i` for some `i` below the item count, the click sets the selection to `i` and
changes nothing else (item sequence, balance and state stay), and `i` is the only row that
holds the point; if the point lies in no row, the click changes nothing. -/
theorem C11_row_click_selects (stof : List Char → Option Price) (s : App) (mx my : Int)
    (hs : s.state = AppState.STORE) (hno : hitsNoButton s mx my = true) :
    (∀ i : Nat, i < s.store.length →
      IsPointInRect mx my (itemRect s.winWidth s.winHeight i) = true →
      dispatch stof s (Event.MOUSEBUTTONDOWN mx my) =
          some { s with storeSelectedIndex := (i : Int) } ∧
        ∀ j : Nat, IsPointInRect mx my (itemRect s.winWidth s.winHeight j) = true → j = i) ∧
    ((∀ i : Nat, i < s.store.length →
        IsPointInRect mx my (itemRect s.winWidth s.winHeight i) = false) →
      dispatch stof s (Event.MOUSEBUTTONDOWN mx my) = some s) := by
  have hclick : dispatch stof s (Event.MOUSEBUTTONDOWN mx my) = storeRow s mx my :=
    (dispatch_click_store stof hs mx my).trans (clickStore_of_hitsNoButton hno)
  refine ⟨fun i hi hin => ⟨?_, fun j hj => itemRect_disjoint hj hin⟩, fun hnone => ?_⟩
  · rw [hclick]
    unfold storeRow
    rw [rowHit_of_mem hi hin]
  · rw [hclick]
    unfold storeRow
    rw [rowHit_none_of_no_row hnone]

/-- C11 on the seeded store in the 800 x 600 layout: the click at (100, 170) lies in row 2
only (rows start at y = 60, 110, 160 and are 33 high) and selects it; the click at
(100, 100), between two rows, changes nothing. -/
theorem C11_row_click_selects_witness :
    dispatch stofDec (storeWith seededStore 0) (Event.MOUSEBUTTONDOWN 100 170) =
        some (storeWith seededStore 2) ∧
      itemRect 800 600 2 = { x := 50, y := 160, w := 700, h := 33 } ∧
      dispatch stofDec (storeWith seededStore 0) (Event.MOUSEBUTTONDOWN 100 100) =
        some (storeWith seededStore 0) := by
  have h1 := C11_row_click_selects stofDec (storeWith seededStore 0) 100 170
    (by decide) (by decide)
  have h2 := C11_row_click_selects stofDec (storeWith seededStore 0) 100 100
    (by decide) (by decide)
  refine ⟨(h1.1 2 (by decide) (by decide)).1, by decide, h2.2 ?_⟩
  intro i hi
  have hi3 : i < 3 := hi
  interval_cases i <;> decide

/-! ## C12: overlap of the hit regions -/

theorem not_overlap_of_x {r1 r2 : SDL_Rect}
    (h : ∀ px : Int, ¬ (r1.x ≤ px ∧ px < r1.x + r1.w ∧ r2.x ≤ px ∧ px < r2.x + r2.w)) :
    ¬ overlap r1 r2 := by
  rintro ⟨px, py, h1, h2⟩
  simp only [IsPointInRect, Bool.and_eq_true, decide_eq_true_eq] at h1 h2
  exact h px ⟨h1.1.1.1, h1.1.1.2, h2.1.1.1, h2.1.1.2⟩

theorem not_overlap_of_y {r1 r2 : SDL_Rect}
    (h : ∀ py : Int, ¬ (r1.y ≤ py ∧ py < r1.y + r1.h ∧ r2.y ≤ py ∧ py < r2.y + r2.h)) :
    ¬ overlap r1 r2 := by
  rintro ⟨px, py, h1, h2⟩
  simp only [IsPointInRect, Bool.and_eq_true, decide_eq_true_eq] at h1 h2
  exact h py ⟨h1.1.2, h1.2, h2.1.2, h2.2⟩

/-- The two Menu buttons assigned by `layout` never overlap. -/
theorem menu_buttons_disjoint (s : App) :
    ¬ overlap (layout s).menuPlayButton (layout s).menuExitButton := by
  apply not_overlap_of_y
  intro py
  simp only [layout]
  omega

/-- The seven Store buttons assigned by `layout` never overlap each other. -/
theorem store_buttons_disjoint (s : App) :
    List.Pairwise (fun a b => ¬ overlap a b)
      [(layout s).btnUp, (layout s).btnDown, (layout s).btnAdd, (layout s).btnDelete,
       (layout s).btnSell, (layout s).btnEdit, (layout s).btnBack] := by
  simp only [List.pairwise_cons, List.mem_cons, List.mem_singleton, List.not_mem_nil,
    forall_eq_or_imp, forall_eq, or_false, false_implies, implies_true, and_true,
    List.Pairwise.nil]
  refine ⟨⟨?_, ?_, ?_, ?_, ?_, ?_⟩, ⟨?_, ?_, ?_, ?_, ?_⟩, ⟨?_, ?_, ?_, ?_⟩, ⟨?_, ?_, ?_⟩,
    ⟨?_, ?_⟩, ?_⟩ <;>
  · apply not_overlap_of_x
    intro px
    simp only [layout]
    omega

/-- The three input fields of the editor never overlap each other, and neither do Save and
Cancel. -/
theorem edit_fields_disjoint (w h : Int) :
    ¬ overlap (nameRect w h) (priceRect w h) ∧ ¬ overlap (nameRect w h) (descRect w h) ∧
      ¬ overlap (priceRect w h) (descRect w h) ∧ ¬ overlap (btnSave w h) (btnCancel w h) := by
  refine ⟨?_, ?_, ?_, ?_⟩
  · apply not_overlap_of_y
    intro py
    simp only [nameRect, priceRect]
    omega
  · apply not_overlap_of_y
    intro py
    simp only [nameRect, descRect]
    omega
  · apply not_overlap_of_y
    intro py
    simp only [priceRect, descRect]
    omega
  · apply not_overlap_of_x
    intro px
    simp only [btnSave, btnCancel]
    omega

/-- When the Description field ends above the buttons, no field overlaps Save or Cancel. -/
theorem edit_fields_buttons_disjoint (w h : Int) (hh : Int.tdiv h 5 + 268 ≤ h - 80) :
    ∀ f ∈ [nameRect w h, priceRect w h, descRect w h],
      ∀ b ∈ [btnSave w h, btnCancel w h], ¬ overlap f b := by
  intro f hf b hb
  simp only [List.mem_cons, List.mem_singleton, List.not_mem_nil, or_false] at hf hb
  apply not_overlap_of_y
  intro py
  rcases hf with rfl | rfl | rfl <;> rcases hb with rfl | rfl <;>
    (simp only [nameRect, priceRect, descRect, btnSave, btnCancel]; omega)

/-- A click inside an input field of the editor sets the focus to that field and changes
nothing else: the fields are tested before Save and Cancel. -/
theorem clickEdit_field (stof : List Char → Option Price) (s : App) (mx my : Int) :
    (IsPointInRect mx my (nameRect s.winWidth s.winHeight) = true →
      clickEdit stof s mx my = some { s with editFocusedField := 0 }) ∧
    (IsPointInRect mx my (priceRect s.winWidth s.winHeight) = true →
      clickEdit stof s mx my = some { s with editFocusedField := 1 }) ∧
    (IsPointInRect mx my (descRect s.winWidth s.winHeight) = true →
      clickEdit stof s mx my = some { s with editFocusedField := 2 }) := by
  have hd := edit_fields_disjoint s.winWidth s.winHeight
  refine ⟨fun h1 => ?_, fun h2 => ?_, fun h3 => ?_⟩
  · unfold clickEdit
    rw [if_pos h1]
  · have h1 : ¬ IsPointInRect mx my (nameRect s.winWidth s.winHeight) = true :=
      fun h1 => hd.1 ⟨mx, my, h1, h2⟩
    unfold clickEdit
    rw [if_neg h1, if_pos h2]
  · have h1 : ¬ IsPointInRect mx my (nameRect s.winWidth s.winHeight) = true :=
      fun h1 => hd.2.1 ⟨mx, my, h1, h3⟩
    have h2 : ¬ IsPointInRect mx my (priceRect s.winWidth s.winHeight) = true :=
      fun h2 => hd.2.2.1 ⟨mx, my, h2, h3⟩
    unfold clickEdit
    rw [if_neg h1, if_neg h2, if_pos h3]

/-- On a window at least 440 wide and between 299 and 372 high, every point of Save and
every point of Cancel lies in the Description field. -/
theorem edit_buttons_inside_desc (w h : Int) (hw : 440 ≤ w) (hlo : 299 ≤ h) (hhi : h ≤ 372)
    (mx my : Int)
    (hb : IsPointInRect mx my (btnSave w h) = true ∨
      IsPointInRect mx my (btnCancel w h) = true) :
    IsPointInRect mx my (descRect w h) = true := by
  have h5 : Int.tdiv h 5 = h / 5 := Int.tdiv_eq_ediv (by omega) (by omega)
  have h2 : Int.tdiv w 2 = w / 2 := Int.tdiv_eq_ediv (by omega) (by omega)
  simp only [IsPointInRect, btnSave, btnCancel, descRect, Bool.and_eq_true,
    decide_eq_true_eq, h5, h2] at hb ⊢
  omega

/-- On such a window no click reaches the Save branch. -/
theorem hitsSave_false_of_low_window (s : App) (hw : 440 ≤ s.winWidth)
    (hlo : 299 ≤ s.winHeight) (hhi : s.winHeight ≤ 372) (mx my : Int) :
    hitsSave s mx my = false := by
  cases hsave : IsPointInRect mx my (btnSave s.winWidth s.winHeight) with
  | false => simp [hitsSave, hsave]
  | true =>
    have hin := edit_buttons_inside_desc s.winWidth s.winHeight hw hlo hhi mx my (Or.inl hsave)
    simp [hitsSave, hin]

/-- C12 fails on the code in Edit state. On a window of 800 x 400 the point (300, 330) lies
in the Description field and in the Save button. On a window of 800 x 350 the Description
field is {50, 230, 700, 108} and holds every point of Save {230, 270, 150, 50} and of
Cancel {420, 270, 150, 50}; the fields are tested first, so no click reaches the Save
branch, and the click at (300, 300), a point of Save, sets the focus to field 2 and commits
nothing. From the first frame, Play, Edit, a resize to 800 x 350 and that click end in Edit
state with the focus on field 2 and the item names as seeded. -/
theorem C12_edit_fields_cover_buttons :
    overlap (descRect 800 400) (btnSave 800 400) ∧
    descRect 800 350 = { x := 50, y := 230, w := 700, h := 108 } ∧
    btnSave 800 350 = { x := 230, y := 270, w := 150, h := 50 } ∧
    btnCancel 800 350 = { x := 420, y := 270, w := 150, h := 50 } ∧
    overlap (descRect 800 350) (btnSave 800 350) ∧
    overlap (descRect 800 350) (btnCancel 800 350) ∧
    (∀ mx my : Int, IsPointInRect mx my (btnSave 800 350) = true ∨
        IsPointInRect mx my (btnCancel 800 350) = true →
      IsPointInRect mx my (descRect 800 350) = true) ∧
    (∀ mx my : Int, hitsSave editLowWindow mx my = false) ∧
    IsPointInRect 300 300 (btnSave 800 350) = true ∧
    dispatch stofDec editLowWindow (Event.MOUSEBUTTONDOWN 300 300) =
      some { editLowWindow with editFocusedField := 2 } ∧
    (dispatchAll stofDec firstFrame
        [evPlay, evEdit, Event.WINDOWEVENT_RESIZED 800 350, Event.MOUSEBUTTONDOWN 300 300]).map
        (fun s => (s.state, s.editFocusedField, s.store.map Toy.name)) =
      some (AppState.EDIT, 2, seededStore.map Toy.name) := by
  refine ⟨⟨300, 330, by decide, by decide⟩, by decide, by decide, by decide,
    ⟨300, 300, by decide, by decide⟩, ⟨500, 300, by decide, by decide⟩,
    fun mx my hb => edit_buttons_inside_desc 800 350 (by decide) (by decide) (by decide) mx my hb,
    fun mx my => hitsSave_false_of_low_window editLowWindow (by decide) (by decide) (by decide)
      mx my,
    by decide, ?_, by decide!⟩
  have hd : dispatch stofDec editLowWindow (Event.MOUSEBUTTONDOWN 300 300) =
      clickEdit stofDec editLowWindow 300 300 := by
    simp [dispatch, editLowWindow]
  rw [hd]
  exact (clickEdit_field stofDec editLowWindow 300 300).2.2 (by decide)

/-! ## C13: the rectangles a Menu or Store click is tested against -/

/-- C13 fails on the code. In the first frame a click is tested against the contents the
button rectangles have before their first assignment (here all zero): the click at
(300, 220), inside the Play button of the 800 x 600 layout, is ignored. In a later frame,
after a resize to 400 x 300 dispatched earlier in the same frame, the stored rectangles are
still those of 800 x 600: the click at (150, 110), inside the Play button of the 400 x 300
layout, leaves the state Menu, where the same click tested against the layout of the stored
window size leads to Store. -/
theorem C13_buttons_tested_are_stale :
    (dispatch stofDec (initial blank) evPlay = some (initial blank) ∧
      (initial blank).state = AppState.MENU ∧
      IsPointInRect 300 220 (layout (initial blank)).menuPlayButton = true ∧
      ¬ buttonsCurrent (initial blank)) ∧
    ((dispatchAll stofDec firstFrame resizeThenClick).map
        (fun a => (a.state, a.winWidth, a.winHeight, a.menuPlayButton)) =
      some (AppState.MENU, 400, 300, { x := 267, y := 200, w := 266, h := 60 }) ∧
      (dispatchAll stofDec firstFrame resizeThenClick).map
        (fun a => (layout a).menuPlayButton) = some { x := 133, y := 100, w := 133, h := 30 } ∧
      ((dispatch stofDec firstFrame (Event.WINDOWEVENT_RESIZED 400 300)).bind
        (fun a => dispatch stofDec (layout a) (Event.MOUSEBUTTONDOWN 150 110))).map
        (fun a => a.state) = some AppState.STORE ∧
      ∀ a, dispatch stofDec firstFrame (Event.WINDOWEVENT_RESIZED 400 300) = some a →
        ¬ buttonsCurrent a) := by
  refine ⟨⟨by decide!, by decide, by decide, ?_⟩, by decide!, by decide!, by decide!, ?_⟩
  · intro h
    have h1 : (layout (initial blank)).menuPlayButton = (initial blank).menuPlayButton := by
      rw [h]
    exact absurd h1 (by decide)
  · intro a ha h
    have h1 : (layout a).menuPlayButton = a.menuPlayButton := by
      rw [h]
    simp only [dispatch, Option.some.injEq] at ha
    rw [← ha] at h1
    exact absurd h1 (by decide)

/-! ## C14: quantities -/

theorem quantitiesOk_initial (uninit : App) : quantitiesOk (initial uninit) := by
  intro t ht
  simp only [initial, seededStore, List.mem_cons, List.mem_singleton, List.not_mem_nil,
    or_false] at ht
  rcases ht with h | h | h <;> (rw [h]; decide)

theorem quantitiesOk_storeAdd {s s1 : App} (hok : quantitiesOk s) (h : storeAdd s = some s1) :
    quantitiesOk s1 := by
  unfold storeAdd at h
  cases h
  intro t ht
  rcases List.mem_append.mp ht with h1 | h1
  · exact hok t h1
  · rw [List.mem_singleton.mp h1]
    decide

theorem quantitiesOk_storeDelete {s s1 : App} (hok : quantitiesOk s)
    (h : storeDelete s = some s1) : quantitiesOk s1 := by
  unfold storeDelete at h
  split_ifs at h with hg hpos
  · obtain ⟨store1, he, h⟩ := Option.bind_eq_some.mp h
    obtain ⟨-, -, rfl⟩ := vecErase_eq_some he
    cases h
    exact fun t ht => hok t (List.mem_of_mem_eraseIdx ht)
  · obtain ⟨store1, he, h⟩ := Option.bind_eq_some.mp h
    obtain ⟨-, -, rfl⟩ := vecErase_eq_some he
    cases h
    exact fun t ht => hok t (List.mem_of_mem_eraseIdx ht)
  · cases h
    exact hok

theorem quantitiesOk_storeSell {s s1 : App} (hok : quantitiesOk s)
    (h : storeSell s = some s1) : quantitiesOk s1 := by
  unfold storeSell at h
  split_ifs at h with hg
  · obtain ⟨t, ht, h⟩ := Option.bind_eq_some.mp h
    split_ifs at h with hq hq1
    · obtain ⟨store1, he, h⟩ := Option.bind_eq_some.mp h
      obtain ⟨-, -, rfl⟩ := vecErase_eq_some he
      split_ifs at h with hge
      · cases h
        exact fun u hu => hok u (List.mem_of_mem_eraseIdx hu)
      · cases h
        exact fun u hu => hok u (List.mem_of_mem_eraseIdx hu)
    · obtain ⟨store1, he, h⟩ := Option.bind_eq_some.mp h
      obtain ⟨-, -, rfl⟩ := vecSet_eq_some he
      cases h
      intro u hu
      rcases List.mem_or_eq_of_mem_set hu with h1 | h1
      · exact hok u h1
      · rw [h1]
        simp only
        omega
    · cases h
      exact hok
  · cases h
    exact hok

theorem quantitiesOk_saveClicked {stof : List Char → Option Price} {s s1 : App}
    (hok : quantitiesOk s) (h : saveClicked stof s = some s1) : quantitiesOk s1 := by
  unfold saveClicked at h
  split_ifs at h with hg
  · obtain ⟨t, ht, h⟩ := Option.bind_eq_some.mp h
    have htq := hok t (List.getElem?_mem (vecAt_eq_some ht).2.2)
    obtain ⟨store1, he, h⟩ := Option.bind_eq_some.mp h
    obtain ⟨-, -, rfl⟩ := vecSet_eq_some he
    cases h
    intro u hu
    rcases List.mem_or_eq_of_mem_set hu with h1 | h1
    · exact hok u h1
    · rw [h1]
      cases stof s.editPriceStr <;> exact htq
  · cases h
    exact hok

theorem quantitiesOk_setCurrentField {s : App} (v : List Char) (hok : quantitiesOk s) :
    quantitiesOk (setCurrentField s v) := by
  unfold setCurrentField
  split_ifs <;> exact hok

theorem quantitiesOk_dispatch {stof : List Char → Option Price} {s s1 : App} {e : Event}
    (hok : quantitiesOk s) (h : dispatch stof s e = some s1) : quantitiesOk s1 := by
  cases e with
  | QUIT => cases h; exact hok
  | WINDOWEVENT_RESIZED a b => cases h; exact hok
  | OTHER => cases h; exact hok
  | MOUSEBUTTONDOWN mx my =>
    simp only [dispatch] at h
    split_ifs at h
    · unfold clickMenu at h
      split_ifs at h <;> (cases h; exact hok)
    · unfold clickStore at h
      split_ifs at h
      · unfold storeUp at h
        split_ifs at h <;> (cases h; exact hok)
      · unfold storeDown at h
        split_ifs at h <;> (cases h; exact hok)
      · exact quantitiesOk_storeAdd hok h
      · exact quantitiesOk_storeDelete hok h
      · exact quantitiesOk_storeSell hok h
      · unfold storeEdit at h
        split_ifs at h
        · obtain ⟨t, -, h⟩ := Option.bind_eq_some.mp h
          obtain ⟨r, -, h⟩ := Option.bind_eq_some.mp h
          cases h
          exact hok
        · cases h; exact hok
      · cases h; exact hok
      · unfold storeRow at h
        split at h <;> (cases h; exact hok)
    · unfold clickEdit at h
      split_ifs at h
      · cases h; exact hok
      · cases h; exact hok
      · cases h; exact hok
      · exact quantitiesOk_saveClicked hok h
      · cases h; exact hok
      · cases h; exact hok
    · cases h; exact hok
  | TEXTINPUT text =>
    simp only [dispatch] at h
    split_ifs at h
    · unfold textInput at h
      split_ifs at h <;> (cases h; exact hok)
    · cases h; exact hok
  | KEYDOWN sym =>
    simp only [dispatch] at h
    split_ifs at h
    · unfold keyDown at h
      split_ifs at h
      · split at h
        · cases h
          exact quantitiesOk_setCurrentField _ hok
        · cases h; exact hok
      · cases h; exact hok
      · cases h; exact hok
      · rw [← saveClicked_eq_enterCommit] at h
        exact quantitiesOk_saveClicked hok h
      · cases h; exact hok
      · cases h; exact hok
    · cases h; exact hok

theorem quantitiesOk_of_reachable {stof : List Char → Option Price} {uninit s : App}
    (h : Reachable stof uninit s) : quantitiesOk s := by
  induction h with
  | init => exact quantitiesOk_initial uninit
  | event e _ hstep ih => exact quantitiesOk_dispatch ih hstep
  | frameEnd _ ih => exact ih

/-- C14. In every reachable state every stored item has quantity at least 1. Hence on a
reachable Store state with a non-empty item sequence a click that reaches the Sell branch
finds the selected item `t` with `t.quantity > 0`, and either removes it (quantity 1: the
count drops by one) or stores it with its quantity lowered by one (quantity above 1); in
both cases its price is added to the balance (a float addition). -/
theorem C14_quantities_positive (stof : List Char → Option Price) (uninit s : App)
    (hreach : Reachable stof uninit s) :
    (∀ t ∈ s.store, 1 ≤ t.quantity) ∧
      ∀ mx my : Int, s.state = AppState.STORE → hitsSell s mx my = true → s.store ≠ [] →
        ∃ t s1, s.store[s.storeSelectedIndex.toNat]? = some t ∧ 0 < t.quantity ∧
          dispatch stof s (Event.MOUSEBUTTONDOWN mx my) = some s1 ∧
          s1.balance = fadd s.balance t.price ∧
          ((t.quantity = 1 ∧ s1.store = s.store.eraseIdx s.storeSelectedIndex.toNat ∧
              s1.store.length + 1 = s.store.length) ∨
            (1 < t.quantity ∧
              s1.store = s.store.set s.storeSelectedIndex.toNat
                { t with quantity := t.quantity - 1 })) := by
  have hq := quantitiesOk_of_reachable hreach
  refine ⟨hq, fun mx my hs hhit hne => ?_⟩
  obtain ⟨h0, hl⟩ := selInRange_of_reachable hreach hne
  obtain ⟨t, -, hget⟩ := vecAt_of_range h0 hl
  have htq := hq t (List.getElem?_mem hget)
  have hclick := (dispatch_click_store stof hs mx my).trans (clickStore_of_hitsSell hhit)
  by_cases h1 : t.quantity = 1
  · refine ⟨t, _, hget, by omega, hclick.trans (storeSell_last h0 hget h1), rfl,
      Or.inl ⟨h1, rfl, ?_⟩⟩
    simp only
    rw [List.length_eraseIdx, if_pos (getElem?_lt hget)]
    have := getElem?_lt hget
    omega
  · have h2 : 1 < t.quantity := by omega
    exact ⟨t, _, hget, by omega, hclick.trans (storeSell_decrement h0 hget h2), rfl,
      Or.inr ⟨h2, rfl⟩⟩

/-- C14 at the state reached by Play, Down and four Sells (quantities 10, 1, 15, the second
item selected): all quantities are at least 1 and a further Sell click removes the second
item. -/
theorem C14_quantities_positive_witness :
    ∃ s, dispatchAll stofDec firstFrame dollLastUnitRun = some s ∧
      Reachable stofDec blank s ∧ s.store.map Toy.quantity = [10, 1, 15] ∧
      (∀ t ∈ s.store, 1 ≤ t.quantity) ∧
      ∃ s1, dispatch stofDec s evSell = some s1 ∧ s1.store.map Toy.quantity = [10, 15] := by
  have hsome : (dispatchAll stofDec firstFrame dollLastUnitRun).isSome = true := by decide!
  obtain ⟨s, hs⟩ := Option.isSome_iff_exists.mp hsome
  have hfacts : (dispatchAll stofDec firstFrame dollLastUnitRun).map
      (fun a => (a.state, hitsSell a 500 550, a.store.map Toy.quantity, a.store.isEmpty)) =
      some (AppState.STORE, true, [10, 1, 15], false) := by decide!
  have hnext : ((dispatchAll stofDec firstFrame dollLastUnitRun).bind
      (fun a => dispatch stofDec a evSell)).map (fun a => a.store.map Toy.quantity) =
      some [10, 15] := by decide!
  rw [hs] at hfacts hnext
  simp only [Option.map_some', Option.some.injEq, Prod.mk.injEq, Option.some_bind] at hfacts hnext
  obtain ⟨hstate, hhit, hqs, hempty⟩ := hfacts
  have hr : Reachable stofDec blank s :=
    reachable_dispatchAll dollLastUnitRun (reachable_firstFrame stofDec) hs
  obtain ⟨hall, hsell⟩ := C14_quantities_positive stofDec blank s hr
  have hne : s.store ≠ [] := by
    intro hnil
    rw [hnil] at hempty
    exact absurd hempty (by decide)
  obtain ⟨t, s1, -, -, hstep, -⟩ := hsell 500 550 hstate hhit hne
  refine ⟨s, hs, hr, hqs, hall, s1, hstep, ?_⟩
  have hstep1 : dispatch stofDec s evSell = some s1 := hstep
  rw [hstep1] at hnext
  simpa using hnext

end SDL2Game
